import Mathlib

/-!
# Verification of the codie indexing pipeline

A shallow embedding, in Lean 4, of the core of the `codie` repository
(a Go codebase-indexing pipeline): the generic chunker
(`fileutils.SplitCodeIntoChunks`), the batch-embedding client
(`embeddings.GetBatchEmbeddings` and its helpers), the rate limiter
(`embeddings.RateLimiter`), file discovery (`fileutils.GetCodeFiles`,
`fileutils.GetCodeFilesParallel`) and the orchestration in `main.go`
(`processFile`, `indexCodebase`).

Modelling conventions:
* Go strings are modelled as `List Char`; `len` is the element count.
* `float32` scalars are never inspected by any of the modelled logic
  (only vector lengths and identity matter), so embedding vectors are
  modelled as `List Int`.
* Go errors are carried as abstract numeric codes (`Nat`); the code under
  verification only tests errors for nil-ness (the "rate limit" substring
  test in the retry loop influences only sleep durations, which are not
  modelled).
* The remote embedding API is an explicit parameter
  `api : Nat → Nat → Except Nat (List Vec)` mapping a window's start
  index and an attempt number to that attempt's outcome.
* Concurrency is modelled by sequentialising independent effects in a
  fixed order (window order, file order); every property proved here is
  insensitive to that order.  The rate limiter itself is modelled as an
  explicit transition system over caller phases.
-/

set_option autoImplicit false

abbrev Str : Type := List Char

abbrev Vec : Type := List Int

/-! ## Whitespace trimming (Go `strings.TrimSpace`) -/

/-- The whitespace predicate used by Go's `unicode.IsSpace` on the ASCII /
Latin-1 range: space, tab, newline, vertical tab, form feed, carriage
return, NEL and NBSP. -/
def isSpace (c : Char) : Bool :=
  c = ' ' || c = '\t' || c = '\n' || c = Char.ofNat 11 || c = Char.ofNat 12 ||
  c = '\r' || c = Char.ofNat 0x85 || c = Char.ofNat 0xA0

/-- Drop leading whitespace (the left half of `strings.TrimSpace`). -/
def trimLeftWS : Str → Str
  | [] => []
  | c :: cs => if isSpace c then trimLeftWS cs else c :: cs

/-- Go `strings.TrimSpace`: drop leading and trailing whitespace. -/
def trimSpace (s : Str) : Str :=
  (trimLeftWS (trimLeftWS s).reverse).reverse

/-! ## Splitting on the `"\n\n"` separator (Go `strings.Split(code, "\n\n")`)

`strings.Split` cuts at each leftmost non-overlapping occurrence of the
separator; `splitNN` implements exactly that for the two-character
separator `"\n\n"`. -/

def splitNN : Str → List Str
  | [] => [[]]
  | [c] => [[c]]
  | a :: b :: rest =>
    if a = '\n' && b = '\n' then
      [] :: splitNN rest
    else
      match splitNN (b :: rest) with
      | [] => [[a]]
      | s :: ss => (a :: s) :: ss

/-- Whether `"\n\n"` occurs in `s` (i.e. `strings.Contains(s, "\n\n")`). -/
def containsNN : Str → Bool
  | [] => false
  | [_] => false
  | a :: b :: rest => (a = '\n' && b = '\n') || containsNN (b :: rest)

/-! ## `fileutils.SplitCodeIntoChunks` -/

/-- The loop body of `SplitCodeIntoChunks` once the current raw segment has
been trimmed and found non-empty: flush the buffer if appending would
exceed `maxChunkSize`, append (with a `"\n\n"` separator when the buffer is
non-empty), then flush immediately if the buffer now meets or exceeds
`maxChunkSize`.  State is `(chunks, currentChunk)`. -/
def segStep (maxChunkSize : Nat) (st : List Str × Str) (trimmedChunk : Str) :
    List Str × Str :=
  let st1 :=
    if 0 < st.2.length ∧ maxChunkSize < st.2.length + trimmedChunk.length then
      (st.1 ++ [st.2], ([] : Str))
    else st
  let cur :=
    if 0 < st1.2.length then st1.2 ++ '\n' :: '\n' :: trimmedChunk
    else st1.2 ++ trimmedChunk
  if maxChunkSize ≤ cur.length then (st1.1 ++ [cur], ([] : Str))
  else (st1.1, cur)

/-- One iteration of the `for _, chunk := range rawChunks` loop: skip
segments that are empty after trimming, otherwise run `segStep`. -/
def splitStep (maxChunkSize : Nat) (st : List Str × Str) (chunk : Str) :
    List Str × Str :=
  let trimmedChunk := trimSpace chunk
  if trimmedChunk.isEmpty then st else segStep maxChunkSize st trimmedChunk

/-- `fileutils.SplitCodeIntoChunks(code, maxChunkSize)`: split on `"\n\n"`,
greedily coalesce trimmed non-empty segments, flush on overflow, emit the
trailing buffer. A non-positive `maxChunkSize` defaults to 1000. -/
def SplitCodeIntoChunks (code : Str) (maxChunkSize : Int) : List Str :=
  let M : Nat := if maxChunkSize ≤ 0 then 1000 else maxChunkSize.toNat
  let rawChunks := splitNN code
  let st := rawChunks.foldl (splitStep M) ([], [])
  if 0 < st.2.length then st.1 ++ [st.2] else st.1

/-! ### Structural lemmas about `splitNN`, `containsNN` and trimming -/

theorem splitNN_ne_nil (s : Str) : splitNN s ≠ [] := by
  match s with
  | [] => simp [splitNN]
  | [c] => simp [splitNN]
  | a :: b :: rest =>
    simp only [splitNN]
    split
    · simp
    · split <;> simp

theorem splitNN_cons_shape (x : Char) (xs : Str) :
    ∃ s ss, splitNN (x :: xs) = s :: ss ∧ (s = [] ∨ ∃ t, s = x :: t) := by
  match xs with
  | [] => exact ⟨[x], [], rfl, Or.inr ⟨[], rfl⟩⟩
  | b :: rest =>
    simp only [splitNN]
    split
    · exact ⟨[], splitNN rest, rfl, Or.inl rfl⟩
    · split
      · next heq => exact absurd heq (splitNN_ne_nil _)
      · next s ss heq => exact ⟨x :: s, ss, rfl, Or.inr ⟨s, rfl⟩⟩

theorem containsNN_cons_false {c : Char} {cs : Str} (h : containsNN (c :: cs) = false) :
    containsNN cs = false := by
  match cs with
  | [] => rfl
  | d :: cs' =>
    simp only [containsNN, Bool.or_eq_false_iff] at h
    exact h.2

theorem containsNN_splitNN {s : Str} : ∀ p ∈ splitNN s, containsNN p = false := by
  induction s using splitNN.induct with
  | case1 => intro p hp; simp [splitNN] at hp; simp [hp, containsNN]
  | case2 c => intro p hp; simp [splitNN] at hp; simp [hp, containsNN]
  | case3 a b rest hab ih =>
    intro p hp
    simp only [splitNN, if_pos hab] at hp
    rcases List.mem_cons.mp hp with hp | hp
    · simp [hp, containsNN]
    · exact ih p hp
  | case4 a b rest hab heq ih => exact absurd heq (splitNN_ne_nil _)
  | case5 a b rest hab s ss heq ih =>
    intro p hp
    obtain ⟨s', ss', heq', hshape⟩ := splitNN_cons_shape b rest
    rw [heq] at heq'
    injection heq' with h1 h2
    subst h1
    subst h2
    simp only [splitNN, if_neg hab, heq] at hp
    rcases List.mem_cons.mp hp with hp | hp
    · subst hp
      rcases hshape with rfl | ⟨t, rfl⟩
      · simp [containsNN]
      · have hs : containsNN (b :: t) = false := ih (b :: t) (heq ▸ List.mem_cons_self _ _)
        simp only [containsNN, Bool.or_eq_false_iff]
        refine ⟨?_, hs⟩
        simpa using hab
    · exact ih p (heq ▸ List.mem_cons_of_mem _ hp)

theorem splitNN_eq_single {s : Str} (h : containsNN s = false) : splitNN s = [s] := by
  induction s using splitNN.induct with
  | case1 => rfl
  | case2 c => rfl
  | case3 a b rest hab ih => simp [containsNN, hab] at h
  | case4 a b rest hab heq ih => exact absurd heq (splitNN_ne_nil _)
  | case5 a b rest hab s ss heq ih =>
    have h' : containsNN (b :: rest) = false := containsNN_cons_false h
    have hsingle := ih h'
    rw [heq] at hsingle
    injection hsingle with h1 h2
    subst h1
    subst h2
    simp only [splitNN, if_neg hab, heq]

theorem splitNN_append_sep {s : Str} (t : Str) (h : s.getLast? ≠ some '\n') :
    splitNN (s ++ '\n' :: '\n' :: t) = splitNN s ++ splitNN t := by
  induction s using splitNN.induct with
  | case1 =>
    simp only [List.nil_append, splitNN]
    simp
  | case2 c =>
    have hc : c ≠ '\n' := fun hceq => h (by subst hceq; rfl)
    have hc' : ¬(decide (c = '\n') && decide ('\n' = '\n')) = true := by
      simp only [Bool.and_eq_true, decide_eq_true_eq, not_and]
      intro hcc
      exact absurd hcc hc
    have hinner : splitNN ('\n' :: '\n' :: t) = [] :: splitNN t := by
      simp [splitNN]
    show splitNN (c :: '\n' :: '\n' :: t) = [[c]] ++ splitNN t
    rw [show splitNN (c :: '\n' :: '\n' :: t)
          = if (decide (c = '\n') && decide ('\n' = '\n')) = true
            then [] :: splitNN ('\n' :: t)
            else (match splitNN ('\n' :: '\n' :: t) with
                  | [] => [[c]]
                  | s :: ss => (c :: s) :: ss) from rfl,
        if_neg hc', hinner]
    rfl
  | case3 a b rest hab ih =>
    have hne : rest ≠ [] := by
      rintro rfl
      simp only [Bool.and_eq_true, decide_eq_true_eq] at hab
      exact h (by rw [show (a :: b :: ([] : Str)).getLast? = some b from rfl, hab.2])
    have hlast : rest.getLast? ≠ some '\n' := by
      rcases rest with _ | ⟨r, rs⟩
      · exact absurd rfl hne
      · rwa [List.getLast?_cons_cons, List.getLast?_cons_cons] at h
    simp only [List.cons_append, splitNN, if_pos hab, List.append_eq]
    rw [ih hlast]
  | case4 a b rest hab heq ih => exact absurd heq (splitNN_ne_nil _)
  | case5 a b rest hab s ss heq ih =>
    have hlast : (b :: rest).getLast? ≠ some '\n' := by
      rwa [List.getLast?_cons_cons] at h
    have hih := ih hlast
    simp only [List.cons_append] at hih
    simp only [List.cons_append, splitNN, if_neg hab, List.append_eq]
    rw [hih, heq]
    simp

theorem containsNN_infix_iff {s : Str} : containsNN s = true ↔ ['\n', '\n'] <:+: s := by
  induction s using containsNN.induct with
  | case1 =>
    simp only [containsNN]
    refine ⟨fun h => by simp at h, fun hinf => ?_⟩
    have := hinf.length_le
    simp at this
  | case2 c =>
    simp only [containsNN]
    refine ⟨fun h => by simp at h, fun hinf => ?_⟩
    have := hinf.length_le
    simp at this
  | case3 a b rest ih =>
    simp only [containsNN, Bool.or_eq_true, Bool.and_eq_true, decide_eq_true_eq]
    constructor
    · rintro (⟨rfl, rfl⟩ | h)
      · exact ⟨[], rest, rfl⟩
      · exact List.infix_cons (ih.mp h)
    · intro hinf
      rcases List.infix_cons_iff.mp hinf with hpre | hinf'
      · rcases List.cons_prefix_cons.mp hpre with ⟨rfl, hpre'⟩
        rcases List.cons_prefix_cons.mp hpre' with ⟨rfl, -⟩
        exact Or.inl ⟨rfl, rfl⟩
      · exact Or.inr (ih.mpr hinf')

theorem containsNN_infix_false {l s : Str} (hinf : l <:+: s)
    (h : containsNN s = false) : containsNN l = false := by
  by_contra hne
  have hl : containsNN l = true := by
    cases hcl : containsNN l
    · exact absurd hcl hne
    · rfl
  have : containsNN s = true := containsNN_infix_iff.mpr ((containsNN_infix_iff.mp hl).trans hinf)
  simp [this] at h

theorem trimLeftWS_suffix (s : Str) : trimLeftWS s <:+ s := by
  induction s with
  | nil => simp [trimLeftWS]
  | cons c cs ih =>
    simp only [trimLeftWS]
    split
    · exact ih.trans (List.suffix_cons c cs)
    · exact List.suffix_refl _

theorem trimSpace_infix_self (s : Str) : trimSpace s <:+: s := by
  unfold trimSpace
  have h2 : trimLeftWS (trimLeftWS s).reverse <:+ (trimLeftWS s).reverse :=
    trimLeftWS_suffix _
  have h3 : (trimLeftWS (trimLeftWS s).reverse).reverse <+: trimLeftWS s := by
    rw [← List.reverse_suffix]
    simpa using h2
  exact h3.isInfix.trans (trimLeftWS_suffix s).isInfix

theorem trimLeftWS_head? {s : Str} {c : Char} (h : (trimLeftWS s).head? = some c) :
    isSpace c = false := by
  induction s with
  | nil => simp [trimLeftWS] at h
  | cons d ds ih =>
    simp only [trimLeftWS] at h
    split at h
    · exact ih h
    · next hd =>
      simp only [List.head?_cons, Option.some.injEq] at h
      subst h
      simpa using hd

theorem trimSpace_getLast? (s : Str) : (trimSpace s).getLast? ≠ some '\n' := by
  unfold trimSpace
  rw [List.getLast?_reverse]
  intro h
  have := trimLeftWS_head? h
  simp [isSpace] at this

/-- The trimmed non-empty `"\n\n"`-separated segments of a text: exactly the
material `SplitCodeIntoChunks` coalesces into chunks. -/
def segsOfCode (code : Str) : List Str :=
  ((splitNN code).map trimSpace).filter (fun t => !t.isEmpty)

theorem segsOfCode_good {code : Str} :
    ∀ s ∈ segsOfCode code, s ≠ [] ∧ containsNN s = false ∧ s.getLast? ≠ some '\n' := by
  intro s hs
  simp only [segsOfCode, List.mem_filter, List.mem_map] at hs
  obtain ⟨⟨r, hr, rfl⟩, hne⟩ := hs
  refine ⟨fun hcontra => by simp [hcontra] at hne, ?_, trimSpace_getLast? r⟩
  exact containsNN_infix_false (trimSpace_infix_self r) (containsNN_splitNN r hr)

theorem foldl_splitStep_eq_segs (M : Nat) (raws : List Str) :
    ∀ st, raws.foldl (splitStep M) st
      = ((raws.map trimSpace).filter (fun t => !t.isEmpty)).foldl (segStep M) st := by
  induction raws with
  | nil => intro st; rfl
  | cons r rest ih =>
    intro st
    simp only [List.foldl_cons, List.map_cons, List.filter_cons]
    by_cases hr : (trimSpace r).isEmpty = true
    · have h1 : splitStep M st r = st := by simp [splitStep, hr]
      rw [h1, hr]
      simpa using ih st
    · have h1 : splitStep M st r = segStep M st (trimSpace r) := by
        simp only [splitStep]
        rw [if_neg hr]
      rw [h1]
      simp only [Bool.not_eq_true] at hr
      rw [hr]
      simpa using ih (segStep M st (trimSpace r))

theorem getLast?_append_ne_nil {l l' : Str} (h : l' ≠ []) :
    (l ++ l').getLast? = l'.getLast? := by
  rw [List.getLast?_append]
  obtain ⟨x, hx⟩ := Option.isSome_iff_exists.mp (List.getLast?_isSome.mpr h)
  rw [hx]
  rfl

/-! Branch-evaluation lemmas for `segStep`. -/

theorem segStep_flush_flush {M : Nat} {chunks : List Str} {cur seg : Str}
    (h1 : 0 < cur.length ∧ M < cur.length + seg.length) (h2 : M ≤ seg.length) :
    segStep M (chunks, cur) seg = (chunks ++ [cur] ++ [seg], ([] : Str)) := by
  simp only [segStep]
  rw [if_pos h1]
  simp only [List.length_nil, Nat.lt_irrefl, if_false, List.nil_append]
  rw [if_pos h2]

theorem segStep_flush_keep {M : Nat} {chunks : List Str} {cur seg : Str}
    (h1 : 0 < cur.length ∧ M < cur.length + seg.length) (h2 : ¬M ≤ seg.length) :
    segStep M (chunks, cur) seg = (chunks ++ [cur], seg) := by
  simp only [segStep]
  rw [if_pos h1]
  simp only [List.length_nil, Nat.lt_irrefl, if_false, List.nil_append]
  rw [if_neg h2]

theorem segStep_empty_flush {M : Nat} {chunks : List Str} {seg : Str}
    (h2 : M ≤ seg.length) :
    segStep M (chunks, []) seg = (chunks ++ [seg], ([] : Str)) := by
  simp only [segStep]
  rw [if_neg (show ¬(0 < ([] : Str).length ∧ M < ([] : Str).length + seg.length) by simp)]
  simp only [List.length_nil, Nat.lt_irrefl, if_false, List.nil_append]
  rw [if_pos h2]

theorem segStep_empty_keep {M : Nat} {chunks : List Str} {seg : Str}
    (h2 : ¬M ≤ seg.length) :
    segStep M (chunks, []) seg = (chunks, seg) := by
  simp only [segStep]
  rw [if_neg (show ¬(0 < ([] : Str).length ∧ M < ([] : Str).length + seg.length) by simp)]
  simp only [List.length_nil, Nat.lt_irrefl, if_false, List.nil_append]
  rw [if_neg h2]

theorem segStep_append_flush {M : Nat} {chunks : List Str} {cur seg : Str}
    (hc : 0 < cur.length) (h1 : ¬(0 < cur.length ∧ M < cur.length + seg.length))
    (h2 : M ≤ (cur ++ '\n' :: '\n' :: seg).length) :
    segStep M (chunks, cur) seg
      = (chunks ++ [cur ++ '\n' :: '\n' :: seg], ([] : Str)) := by
  simp only [segStep]
  rw [if_neg h1]
  rw [if_pos (show 0 < ((chunks, cur) : List Str × Str).2.length from hc), if_pos h2]

theorem segStep_append_keep {M : Nat} {chunks : List Str} {cur seg : Str}
    (hc : 0 < cur.length) (h1 : ¬(0 < cur.length ∧ M < cur.length + seg.length))
    (h2 : ¬M ≤ (cur ++ '\n' :: '\n' :: seg).length) :
    segStep M (chunks, cur) seg = (chunks, cur ++ '\n' :: '\n' :: seg) := by
  simp only [segStep]
  rw [if_neg h1]
  rw [if_pos (show 0 < ((chunks, cur) : List Str × Str).2.length from hc), if_neg h2]

/-- One `segStep` on a non-empty separator-free segment preserves the
chunker invariants: every emitted chunk either was already present, fits in
`M + 2`, or is a single segment; the buffer stays strictly below `M` and
never ends in a newline; and the segments accounted for grow by exactly
`[seg]`. -/
theorem segStep_inv (M : Nat) (chunks : List Str) (cur seg : Str)
    (hsegne : seg ≠ []) (hsegnn : containsNN seg = false)
    (hseglast : seg.getLast? ≠ some '\n')
    (hcur : cur.length < M) (hlast : cur.getLast? ≠ some '\n') :
    (∀ c ∈ (segStep M (chunks, cur) seg).1,
        c ∈ chunks ∨ c.length ≤ M + 2 ∨ containsNN c = false) ∧
    (segStep M (chunks, cur) seg).2.length < M ∧
    (segStep M (chunks, cur) seg).2.getLast? ≠ some '\n' ∧
    ((segStep M (chunks, cur) seg).1.map splitNN).flatten
        ++ (if (segStep M (chunks, cur) seg).2.isEmpty then []
            else splitNN (segStep M (chunks, cur) seg).2)
      = (chunks.map splitNN).flatten ++ (if cur.isEmpty then [] else splitNN cur)
        ++ [seg] := by
  have hsingle : splitNN seg = [seg] := splitNN_eq_single hsegnn
  by_cases hc1 : 0 < cur.length ∧ M < cur.length + seg.length
  · -- flush the buffer first, then start a fresh buffer holding `seg`
    have hcurne : cur ≠ [] := by
      intro hc
      rw [hc] at hc1
      simp at hc1
    by_cases hflush : M ≤ seg.length
    · rw [segStep_flush_flush hc1 hflush]
      refine ⟨?_, by simp; omega, by simp, ?_⟩
      · intro c hc
        rcases List.mem_append.mp hc with hc | hc
        · rcases List.mem_append.mp hc with hc | hc
          · exact Or.inl hc
          · simp only [List.mem_singleton] at hc
            subst hc
            exact Or.inr (Or.inl (by omega))
        · simp only [List.mem_singleton] at hc
          subst hc
          exact Or.inr (Or.inr hsegnn)
      · simp [hcurne, hsingle, List.isEmpty_iff]
    · rw [segStep_flush_keep hc1 hflush]
      refine ⟨?_, by simp; omega, hseglast, ?_⟩
      · intro c hc
        rcases List.mem_append.mp hc with hc | hc
        · exact Or.inl hc
        · simp only [List.mem_singleton] at hc
          subst hc
          exact Or.inr (Or.inl (by omega))
      · simp [hcurne, hsegne, hsingle, List.isEmpty_iff]
  · -- no pre-flush: append `seg` to the buffer (or start the buffer)
    by_cases hcur0 : cur = []
    · subst hcur0
      by_cases hflush : M ≤ seg.length
      · rw [segStep_empty_flush hflush]
        refine ⟨?_, by simpa using hcur, by simp, ?_⟩
        · intro c hc
          rcases List.mem_append.mp hc with hc | hc
          · exact Or.inl hc
          · simp only [List.mem_singleton] at hc
            subst hc
            exact Or.inr (Or.inr hsegnn)
        · simp [hsingle, List.isEmpty_iff]
      · rw [segStep_empty_keep hflush]
        refine ⟨fun c hc => Or.inl hc, by simp; omega, hseglast, ?_⟩
        simp [hsegne, hsingle, List.isEmpty_iff]
    · -- buffer non-empty and `cur.length + seg.length ≤ M`
      have hcurlen : 0 < cur.length := List.length_pos.mpr hcur0
      have hfit : cur.length + seg.length ≤ M := by
        by_contra hover
        exact hc1 ⟨hcurlen, by omega⟩
      have hcurlen2 : (cur ++ '\n' :: '\n' :: seg).length
          = cur.length + 2 + seg.length := by
        simp [List.length_append]
        omega
      have hsplit2 : splitNN (cur ++ '\n' :: '\n' :: seg)
          = splitNN cur ++ [seg] := by
        rw [splitNN_append_sep seg hlast, hsingle]
      have hlast2 : (cur ++ '\n' :: '\n' :: seg).getLast? = seg.getLast? := by
        rw [show cur ++ '\n' :: '\n' :: seg = (cur ++ ['\n', '\n']) ++ seg by simp]
        exact getLast?_append_ne_nil hsegne
      have hne2 : cur ++ '\n' :: '\n' :: seg ≠ [] := by simp
      by_cases hflush : M ≤ (cur ++ '\n' :: '\n' :: seg).length
      · rw [segStep_append_flush hcurlen hc1 hflush]
        refine ⟨?_, by simp; omega, by simp, ?_⟩
        · intro c hc
          rcases List.mem_append.mp hc with hc | hc
          · exact Or.inl hc
          · simp only [List.mem_singleton] at hc
            subst hc
            exact Or.inr (Or.inl (by omega))
        · simp only [List.map_append, List.map_cons, List.map_nil,
            List.flatten_append, List.isEmpty_nil, if_pos rfl, List.append_nil,
            hsplit2]
          simp [hcur0, List.isEmpty_iff]
      · rw [segStep_append_keep hcurlen hc1 hflush]
        refine ⟨fun c hc => Or.inl hc,
          by simp [List.length_append] at hflush ⊢; omega,
          by rw [hlast2]; exact hseglast, ?_⟩
        rw [if_neg (by simp [List.isEmpty_iff]), hsplit2]
        simp [hcur0, List.isEmpty_iff]

/-- Folding `segStep` over a list of good segments preserves the chunker
invariants. -/
theorem segfold_inv (M : Nat) :
    ∀ (segs chunks : List Str) (cur : Str),
      (∀ s ∈ segs, s ≠ [] ∧ containsNN s = false ∧ s.getLast? ≠ some '\n') →
      (∀ c ∈ chunks, c.length ≤ M + 2 ∨ containsNN c = false) →
      cur.length < M → cur.getLast? ≠ some '\n' →
      (∀ c ∈ (segs.foldl (segStep M) (chunks, cur)).1,
          c.length ≤ M + 2 ∨ containsNN c = false) ∧
      (segs.foldl (segStep M) (chunks, cur)).2.length < M ∧
      (segs.foldl (segStep M) (chunks, cur)).2.getLast? ≠ some '\n' ∧
      ((segs.foldl (segStep M) (chunks, cur)).1.map splitNN).flatten
          ++ (if (segs.foldl (segStep M) (chunks, cur)).2.isEmpty then []
              else splitNN (segs.foldl (segStep M) (chunks, cur)).2)
        = (chunks.map splitNN).flatten
            ++ (if cur.isEmpty then [] else splitNN cur) ++ segs := by
  intro segs
  induction segs with
  | nil =>
    intro chunks cur _ hch hcur hlast
    exact ⟨hch, hcur, hlast, by simp⟩
  | cons s rest ih =>
    intro chunks cur hsegs hch hcur hlast
    obtain ⟨hsne, hsnn, hslast⟩ := hsegs s (List.mem_cons_self _ _)
    obtain ⟨h1, h2, h3, h4⟩ := segStep_inv M chunks cur s hsne hsnn hslast hcur hlast
    have hrest : ∀ t ∈ rest, t ≠ [] ∧ containsNN t = false ∧ t.getLast? ≠ some '\n' :=
      fun t ht => hsegs t (List.mem_cons_of_mem _ ht)
    have hch' : ∀ c ∈ (segStep M (chunks, cur) s).1,
        c.length ≤ M + 2 ∨ containsNN c = false := by
      intro c hc
      rcases h1 c hc with hc' | hc'
      · exact hch c hc'
      · exact hc'
    obtain ⟨g1, g2, g3, g4⟩ := ih (segStep M (chunks, cur) s).1
        (segStep M (chunks, cur) s).2 hrest hch' h2 h3
    simp only [Prod.mk.eta] at g1 g2 g3 g4
    rw [List.foldl_cons]
    refine ⟨g1, g2, g3, ?_⟩
    rw [g4, h4]
    simp [List.append_assoc]

/-- **C1** (amended).  For a positive `maxChunkSize` `M`, every chunk
returned by `SplitCodeIntoChunks` has length at most `M + 2` — the size
check runs before the two-character `"\n\n"` separator is appended, so a
multi-segment chunk may exceed `M` by up to 2 — except when the chunk is a
single blank-line-delimited segment (`splitNN c = [c]`), which is emitted
whole however long it is.  Splitting the returned chunks back on `"\n\n"`
and concatenating recovers exactly the trimmed non-empty segments of the
input, in order: nothing is lost, duplicated or reordered. -/
theorem C1_splitCodeIntoChunks_amended (code : Str) (M : Int) (hM : 0 < M) :
    (∀ c ∈ SplitCodeIntoChunks code M, c.length ≤ M.toNat + 2 ∨ splitNN c = [c]) ∧
    ((SplitCodeIntoChunks code M).map splitNN).flatten = segsOfCode code := by
  have hMne : ¬M ≤ 0 := by omega
  have hMn : 0 < M.toNat := by omega
  simp only [SplitCodeIntoChunks, if_neg hMne]
  rw [foldl_splitStep_eq_segs]
  obtain ⟨g1, g2, g3, g4⟩ :=
    segfold_inv M.toNat
      (((splitNN code).map trimSpace).filter (fun t => !t.isEmpty)) [] []
      (fun s hs => segsOfCode_good s hs) (by simp) (by simpa using hMn) (by simp)
  set st := (((splitNN code).map trimSpace).filter
      (fun t => !t.isEmpty)).foldl (segStep M.toNat) ([], []) with hst
  simp only [List.map_nil, List.flatten_nil, List.isEmpty_nil, if_pos rfl,
    List.nil_append] at g4
  by_cases hbuf : 0 < st.2.length
  · rw [if_pos hbuf]
    have hbufne : ¬st.2.isEmpty = true := by
      simp [List.isEmpty_iff]
      exact List.ne_nil_of_length_pos hbuf
    constructor
    · intro c hc
      rcases List.mem_append.mp hc with hc | hc
      · rcases g1 c hc with hlen | hnn
        · exact Or.inl hlen
        · exact Or.inr (splitNN_eq_single hnn)
      · simp only [List.mem_singleton] at hc
        subst hc
        exact Or.inl (by omega)
    · rw [if_neg hbufne] at g4
      simpa [segsOfCode, List.flatten_append] using g4
  · rw [if_neg hbuf]
    have hbufe : st.2.isEmpty = true := by
      simp only [Nat.not_lt, Nat.le_zero, List.length_eq_zero] at hbuf
      simp [hbuf]
    constructor
    · intro c hc
      rcases g1 c hc with hlen | hnn
      · exact Or.inl hlen
      · exact Or.inr (splitNN_eq_single hnn)
    · rw [if_pos hbufe, List.append_nil] at g4
      simpa [segsOfCode] using g4

/-- The input `"aaaa\n\nbbbbbb"`: two segments of 4 and 6 characters. -/
def c1CexCode : Str :=
  ['a', 'a', 'a', 'a', '\n', '\n', 'b', 'b', 'b', 'b', 'b', 'b']

/-- Counterexample to the claimed bound `length ≤ maxChunkSize`: with
`maxChunkSize = 10`, the chunker coalesces the 4- and 6-character segments
(the check `4 + 6 > 10` fails) and inserts the uncounted `"\n\n"`
separator, returning a single 12-character chunk that is not a single
segment. -/
theorem C1_counterexample :
    SplitCodeIntoChunks c1CexCode 10 = [c1CexCode] ∧
    (10 : Int) < (c1CexCode.length : Int) ∧
    splitNN c1CexCode ≠ [c1CexCode] := by decide

/-- The input `"ab\n\ncd"` used to instantiate the amended C1 theorem. -/
def c1WitnessCode : Str := ['a', 'b', '\n', '\n', 'c', 'd']

/-- Witness for the amended C1 theorem at `code = "ab\n\ncd"`, `M = 3`. -/
theorem C1_splitCodeIntoChunks_amended_witness :
    (0 : Int) < 3 ∧
    ((∀ c ∈ SplitCodeIntoChunks c1WitnessCode 3,
        c.length ≤ (3 : Int).toNat + 2 ∨ splitNN c = [c]) ∧
      ((SplitCodeIntoChunks c1WitnessCode 3).map splitNN).flatten
        = segsOfCode c1WitnessCode) :=
  ⟨by decide, C1_splitCodeIntoChunks_amended c1WitnessCode 3 (by decide)⟩


/-! ## `embeddings.GetBatchEmbeddings` and its helpers

The remote API is a parameter `api : Nat → Nat → Except Nat (List Vec)`:
`api startIdx attempt` is the outcome of the given attempt (1-based) of the
window beginning at `startIdx` in the valid-text list.  Channel delivery
order is nondeterministic in the Go code; the model collects window results
in window order, and no property proved below depends on that order. -/

def MaxTokenLimit : Nat := 8192

/-- Go `strings.Split(s, "\n")`. -/
def splitLines : Str → List Str
  | [] => [[]]
  | c :: rest =>
    if c = '\n' then [] :: splitLines rest
    else
      match splitLines rest with
      | [] => [[c]]
      | l :: ls => (c :: l) :: ls

/-- Go `strings.Join(lines, "\n")`. -/
def joinLines : List Str → Str
  | [] => []
  | [l] => l
  | l :: l' :: ls => l ++ '\n' :: joinLines (l' :: ls)

/-- One iteration of the line loop in `embeddings.trimWhitespace`:
state is `(inContent, lines, lineCount)`. -/
def trimWhitespaceStep (st : Bool × List Str × Nat) (line : Str) :
    Bool × List Str × Nat :=
  let trimmed := trimSpace line
  let inContent := st.1 || !trimmed.isEmpty
  if inContent then
    (inContent, st.2.1 ++ [line], if trimmed.isEmpty then st.2.2 else st.2.2 + 1)
  else (inContent, st.2.1, st.2.2)

/-- `embeddings.trimWhitespace`: drop the leading run of all-blank lines,
keep everything from the first non-blank line on, and return `""` when no
line is non-blank. -/
def trimWhitespace (s : Str) : Str :=
  if s.isEmpty then []
  else
    let st := (splitLines s).foldl trimWhitespaceStep (false, [], 0)
    if st.2.2 = 0 then [] else joinLines st.2.1

/-- The validity test applied to each input text: non-empty after
`trimWhitespace` and approximate token count (length / 4) within the
ceiling. -/
def isValidText (t : Str) : Bool :=
  !(trimWhitespace t).isEmpty && (trimWhitespace t).length / 4 ≤ MaxTokenLimit

inductive LogEvent where
  | tooLong (approxTokens : Nat)
  | skippedCount (n : Nat)
  | lostWarning (got : Nat) (total : Nat)
  deriving DecidableEq, Repr

/-- One iteration of the filtering loop of `GetBatchEmbeddings`: state is
`(validTexts, originalTexts, invalidCount, logs)`. -/
def validStep (st : List Str × List Str × Nat × List LogEvent) (text : Str) :
    List Str × List Str × Nat × List LogEvent :=
  let trimmed := trimWhitespace text
  if ¬trimmed.isEmpty ∧ trimmed.length / 4 ≤ MaxTokenLimit then
    (st.1 ++ [trimmed], st.2.1 ++ [text], st.2.2.1, st.2.2.2)
  else if ¬trimmed.isEmpty then
    (st.1, st.2.1, st.2.2.1 + 1, st.2.2.2 ++ [.tooLong (trimmed.length / 4)])
  else
    (st.1, st.2.1, st.2.2.1 + 1, st.2.2.2)

def validFilter (texts : List Str) : List Str × List Str × Nat × List LogEvent :=
  texts.foldl validStep ([], [], 0, [])

/-- The trimmed valid texts, in input order (`validTexts` in the source). -/
def validTextsOf (texts : List Str) : List Str := (validFilter texts).1

/-- The original (pre-trim) valid texts, in input order
(`originalTexts` in the source). -/
def originalTextsOf (texts : List Str) : List Str := (validFilter texts).2.1

/-- Fuel-indexed helper for `mkWindows`; the fuel only forces structural
recursion (so that the definition evaluates inside the kernel) and is
always called with at least `l.length`. -/
def mkWindowsF (B : Nat) : Nat → Nat → List Str → List (Nat × List Str)
  | 0, _, _ => []
  | fuel + 1, i, l =>
    if l.isEmpty ∨ B = 0 then []
    else (i, l.take B) :: mkWindowsF B fuel (i + B) (l.drop B)

/-- The batch windows `validTexts[i:min(i+B, n)]` with their start indices,
for `i = 0, B, 2B, …` (the `for i := 0; i < len(validTexts); i += batchSize`
loop). -/
def mkWindows (B : Nat) (i : Nat) (l : List Str) : List (Nat × List Str) :=
  mkWindowsF B l.length i l

theorem mkWindowsF_congr (B : Nat) :
    ∀ (f1 f2 i : Nat) (l : List Str), l.length ≤ f1 → l.length ≤ f2 →
      mkWindowsF B f1 i l = mkWindowsF B f2 i l := by
  intro f1
  induction f1 with
  | zero =>
    intro f2 i l h1 h2
    have hl : l = [] := List.length_eq_zero.mp (Nat.le_zero.mp h1)
    subst hl
    cases f2 <;> simp [mkWindowsF]
  | succ f1 ih =>
    intro f2 i l h1 h2
    cases f2 with
    | zero =>
      have hl : l = [] := List.length_eq_zero.mp (Nat.le_zero.mp h2)
      subst hl
      simp [mkWindowsF]
    | succ f2 =>
      simp only [mkWindowsF]
      by_cases hc : l.isEmpty ∨ B = 0
      · rw [if_pos hc, if_pos hc]
      · rw [if_neg hc, if_neg hc]
        simp only [not_or, List.isEmpty_iff] at hc
        have hlpos : 0 < l.length := List.length_pos.mpr hc.1
        have hB : 0 < B := Nat.pos_of_ne_zero hc.2
        refine congrArg _ (ih f2 (i + B) (l.drop B) ?_ ?_) <;>
          · simp only [List.length_drop]
            omega

/-- The defining recurrence of `mkWindows`. -/
theorem mkWindows_eq (B i : Nat) (l : List Str) :
    mkWindows B i l
      = if l.isEmpty ∨ B = 0 then []
        else (i, l.take B) :: mkWindows B (i + B) (l.drop B) := by
  cases l with
  | nil => simp [mkWindows, mkWindowsF]
  | cons x xs =>
    show mkWindowsF B (xs.length + 1) i (x :: xs) = _
    simp only [mkWindowsF]
    by_cases hc : (x :: xs).isEmpty ∨ B = 0
    · rw [if_pos hc, if_pos hc]
    · rw [if_neg hc, if_neg hc]
      simp only [not_or] at hc
      have hB : 0 < B := Nat.pos_of_ne_zero hc.2
      refine congrArg _ (mkWindowsF_congr B _ _ _ _ ?_ ?_)
      · simp only [List.length_drop, List.length_cons]
        omega
      · exact Nat.le_refl _

/-- The attempt numbers of the retry loop
(`for attempt := 1; attempt <= 3; attempt++`). -/
def attemptNums : List Nat := [1, 2, 3]

/-- The retry loop: first success wins, otherwise the error of the final
attempt is kept (`err` holds the last attempt's error when the loop ends
without success). -/
def runAttempts (call : Nat → Except Nat (List Vec)) :
    List Nat → Nat → Except Nat (List Vec)
  | [], lastErr => .error lastErr
  | a :: rest, _ =>
    match call a with
    | .ok d => .ok d
    | .error e => runAttempts call rest e

/-- How many remote calls the retry loop performs. -/
def numAttempts (call : Nat → Except Nat (List Vec)) : List Nat → Nat
  | [] => 0
  | a :: rest =>
    match call a with
    | .ok _ => 1
    | .error _ => 1 + numAttempts call rest

/-- `embeddings.batchResult`. -/
structure batchResult where
  Texts : List Str
  StartIndex : Nat
  Embeddings : List Vec
  Error : Option Nat
  deriving DecidableEq, Repr

/-- The goroutine body for one window (rate-limiter interaction aside):
run the retry loop; on failure record the (wrapped) error; on success store
the response vectors, skipping items whose embedding is empty. -/
def runWindow (call : Nat → Except Nat (List Vec)) (startIdx : Nat)
    (textBatch : List Str) : batchResult :=
  match runAttempts call attemptNums 0 with
  | .error e =>
    { Texts := textBatch, StartIndex := startIdx, Embeddings := [], Error := some e }
  | .ok data =>
    { Texts := textBatch, StartIndex := startIdx,
      Embeddings := data.filter (fun v => !v.isEmpty), Error := none }

/-- A Go `map[string][]float32` as an association list with
insert-overwrites semantics. -/
abbrev EmbMap : Type := List (Str × Vec)

def mapInsert : EmbMap → Str → Vec → EmbMap
  | [], k, v => [(k, v)]
  | (k', v') :: rest, k, v =>
    if k' = k then (k, v) :: rest else (k', v') :: mapInsert rest k v

def mapFind : EmbMap → Str → Option Vec
  | [], _ => none
  | (k', v') :: rest, k => if k' = k then some v' else mapFind rest k

/-- The `for j, embedding := range result.Embeddings` loop of the
collection phase: store `Embeddings[j]` under `originalTexts[StartIndex+j]`
when the bounds checks pass. -/
def insertBatch (orig : List Str) (startIdx textsLen : Nat) :
    EmbMap → Nat → List Vec → EmbMap
  | m, _, [] => m
  | m, j, e :: rest =>
    let m' :=
      if j < textsLen then
        if startIdx + j < orig.length then
          mapInsert m (orig.getD (startIdx + j) []) e
        else m
      else m
    insertBatch orig startIdx textsLen m' (j + 1) rest

/-- Processing one `batchResult` from the result channel: an errored window
contributes nothing to the map. -/
def processResult (orig : List Str) (m : EmbMap) (r : batchResult) : EmbMap :=
  match r.Error with
  | some _ => m
  | none => insertBatch orig r.StartIndex r.Texts.length m 0 r.Embeddings

def collectMap (orig : List Str) (results : List batchResult) : EmbMap :=
  results.foldl (processResult orig) []

def collectErrors (results : List batchResult) : List Nat :=
  results.filterMap (fun r => r.Error)

deriving instance DecidableEq for Except

/-- The four error returns of `GetBatchEmbeddings`. -/
inductive EmbError where
  | noValidTexts
  | missingAPIKey
  | allBatchesFailed (e : Nat)
  | embeddingFailed
  deriving DecidableEq, Repr

/-- A non-positive batch size defaults to 20. -/
def normBatchSize (batchSize : Int) : Nat :=
  if batchSize ≤ 0 then 20 else batchSize.toNat

/-- All window results of one `GetBatchEmbeddings` call, in window order. -/
def windowResults (texts : List Str) (batchSize : Int)
    (api : Nat → Nat → Except Nat (List Vec)) : List batchResult :=
  (mkWindows (normBatchSize batchSize) 0 (validTextsOf texts)).map
    (fun w => runWindow (api w.1) w.1 w.2)

structure BatchOut where
  result : Except EmbError EmbMap
  logs : List LogEvent
  deriving DecidableEq, Repr

/-- `embeddings.GetBatchEmbeddings(texts, batchSize)`, with the API key and
the remote API as explicit parameters and `log.Printf` calls modelled as
`LogEvent`s. -/
def GetBatchEmbeddings (texts : List Str) (batchSize : Int) (apiKey : Str)
    (api : Nat → Nat → Except Nat (List Vec)) : BatchOut :=
  let vf := validFilter texts
  let validTexts := vf.1
  let invalidCount := vf.2.2.1
  let logs1 := vf.2.2.2
  if validTexts.isEmpty then ⟨.error .noValidTexts, logs1⟩
  else
    let logs2 := logs1 ++ (if 0 < invalidCount then [.skippedCount invalidCount] else [])
    if apiKey.isEmpty then ⟨.error .missingAPIKey, logs2⟩
    else
      let results := windowResults texts batchSize api
      let m := collectMap vf.2.1 results
      let errs := collectErrors results
      if m.isEmpty then
        match errs with
        | e :: _ => ⟨.error (.allBatchesFailed e), logs2⟩
        | [] => ⟨.error .embeddingFailed, logs2⟩
      else
        ⟨.ok m, logs2 ++ (if m.length < validTexts.length then
            [.lostWarning m.length validTexts.length] else [])⟩

/-! ### Lemmas about the collection phase -/

theorem mem_mapInsert {m : EmbMap} {k : Str} {v : Vec} :
    ∀ p ∈ mapInsert m k v, p = (k, v) ∨ p ∈ m := by
  induction m with
  | nil => intro p hp; simpa [mapInsert] using hp
  | cons kv rest ih =>
    intro p hp
    simp only [mapInsert] at hp
    split at hp
    · rcases List.mem_cons.mp hp with hp | hp
      · exact Or.inl hp
      · exact Or.inr (List.mem_cons_of_mem _ hp)
    · rcases List.mem_cons.mp hp with hp | hp
      · exact Or.inr (hp ▸ List.mem_cons_self _ _)
      · rcases ih p hp with hp' | hp'
        · exact Or.inl hp'
        · exact Or.inr (List.mem_cons_of_mem _ hp')

theorem mem_insertBatch {orig : List Str} {s tl : Nat} :
    ∀ (embs : List Vec) (m : EmbMap) (j : Nat) (p : Str × Vec),
      p ∈ insertBatch orig s tl m j embs →
      p ∈ m ∨ ∃ idx, idx < embs.length ∧ j + idx < tl ∧
        s + (j + idx) < orig.length ∧
        p = (orig.getD (s + (j + idx)) [], embs.getD idx []) := by
  intro embs
  induction embs with
  | nil => intro m j p hp; exact Or.inl hp
  | cons e rest ih =>
    intro m j p hp
    simp only [insertBatch] at hp
    rcases ih _ (j + 1) p hp with hp' | ⟨idx, hidx, hjt, hjo, hpe⟩
    · -- the element came from the (possibly extended) accumulator
      split at hp'
      · split at hp'
        · rcases mem_mapInsert p hp' with hp'' | hp''
          · refine Or.inr ⟨0, by simp, by omega, by omega, ?_⟩
            simpa using hp''
          · exact Or.inl hp''
        · exact Or.inl hp'
      · exact Or.inl hp'
    · refine Or.inr ⟨idx + 1, by simp; omega, by omega, by omega, ?_⟩
      rw [hpe]
      simp only [List.getD_cons_succ]
      have : s + (j + 1 + idx) = s + (j + (idx + 1)) := by omega
      rw [this]

theorem mem_processResult {orig : List Str} {m : EmbMap} {r : batchResult} :
    ∀ p ∈ processResult orig m r,
      p ∈ m ∨ (r.Error = none ∧ ∃ idx, idx < r.Embeddings.length ∧
        idx < r.Texts.length ∧ r.StartIndex + idx < orig.length ∧
        p = (orig.getD (r.StartIndex + idx) [], r.Embeddings.getD idx [])) := by
  intro p hp
  unfold processResult at hp
  split at hp
  · exact Or.inl hp
  · next herr =>
    rcases mem_insertBatch r.Embeddings m 0 p hp with hp' | ⟨idx, h1, h2, h3, h4⟩
    · exact Or.inl hp'
    · exact Or.inr ⟨herr, idx, h1, by omega, by simpa using h3, by simpa using h4⟩

theorem mem_collectMap_gen {orig : List Str} :
    ∀ (results : List batchResult) (m : EmbMap) (p : Str × Vec),
      p ∈ results.foldl (processResult orig) m →
      p ∈ m ∨ ∃ r ∈ results, r.Error = none ∧ ∃ idx, idx < r.Embeddings.length ∧
        idx < r.Texts.length ∧ r.StartIndex + idx < orig.length ∧
        p = (orig.getD (r.StartIndex + idx) [], r.Embeddings.getD idx []) := by
  intro results
  induction results with
  | nil => intro m p hp; exact Or.inl hp
  | cons r rest ih =>
    intro m p hp
    rw [List.foldl_cons] at hp
    rcases ih _ p hp with hp' | ⟨r', hr', hrest⟩
    · rcases mem_processResult p hp' with hp'' | ⟨herr, hex⟩
      · exact Or.inl hp''
      · exact Or.inr ⟨r, List.mem_cons_self _ _, herr, hex⟩
    · exact Or.inr ⟨r', List.mem_cons_of_mem _ hr', hrest⟩

theorem mem_collectMap {orig : List Str} {results : List batchResult}
    {p : Str × Vec} (hp : p ∈ collectMap orig results) :
    ∃ r ∈ results, r.Error = none ∧ ∃ idx, idx < r.Embeddings.length ∧
      idx < r.Texts.length ∧ r.StartIndex + idx < orig.length ∧
      p = (orig.getD (r.StartIndex + idx) [], r.Embeddings.getD idx []) := by
  rcases mem_collectMap_gen results [] p hp with hp' | hp'
  · simp at hp'
  · exact hp'

theorem runWindow_Texts (call : Nat → Except Nat (List Vec)) (s : Nat)
    (b : List Str) : (runWindow call s b).Texts = b := by
  unfold runWindow
  split <;> rfl

theorem runWindow_StartIndex (call : Nat → Except Nat (List Vec)) (s : Nat)
    (b : List Str) : (runWindow call s b).StartIndex = s := by
  unfold runWindow
  split <;> rfl

theorem runWindow_Embeddings_nonempty (call : Nat → Except Nat (List Vec))
    (s : Nat) (b : List Str) :
    ∀ v ∈ (runWindow call s b).Embeddings, v ≠ [] := by
  unfold runWindow
  split
  · intro v hv; simp at hv
  · intro v hv
    simp only [List.mem_filter, Bool.not_eq_true', List.isEmpty_eq_false] at hv
    exact hv.2

/-! ### Characterisation of the filtering phase -/

theorem isValidText_iff {t : Str} :
    isValidText t = true
      ↔ ¬(trimWhitespace t).isEmpty = true
          ∧ (trimWhitespace t).length / 4 ≤ MaxTokenLimit := by
  simp [isValidText]

theorem validStep_foldl (texts : List Str) :
    ∀ (v o : List Str) (n : Nat) (lg : List LogEvent),
      (texts.foldl validStep (v, o, n, lg)).1
          = v ++ (texts.filter isValidText).map trimWhitespace
        ∧ (texts.foldl validStep (v, o, n, lg)).2.1
          = o ++ texts.filter isValidText := by
  induction texts with
  | nil => intro v o n lg; simp
  | cons t rest ih =>
    intro v o n lg
    rw [List.foldl_cons, List.filter_cons]
    by_cases hv : ¬(trimWhitespace t).isEmpty = true
        ∧ (trimWhitespace t).length / 4 ≤ MaxTokenLimit
    · have hvb : isValidText t = true := isValidText_iff.mpr hv
      have hstep : validStep (v, o, n, lg) t
          = (v ++ [trimWhitespace t], o ++ [t], n, lg) := by
        simp only [validStep]
        rw [if_pos hv]
      rw [hstep, hvb]
      obtain ⟨h1, h2⟩ := ih (v ++ [trimWhitespace t]) (o ++ [t]) n lg
      rw [h1, h2]
      simp
    · have hvb : ¬isValidText t = true := fun hc => hv (isValidText_iff.mp hc)
      rw [if_neg hvb]
      by_cases h2 : ¬(trimWhitespace t).isEmpty = true
      · have hstep : validStep (v, o, n, lg) t
            = (v, o, n + 1, lg ++ [.tooLong ((trimWhitespace t).length / 4)]) := by
          simp only [validStep]
          rw [if_neg hv, if_pos h2]
        rw [hstep]
        exact ih v o (n + 1) _
      · have hstep : validStep (v, o, n, lg) t = (v, o, n + 1, lg) := by
          simp only [validStep]
          rw [if_neg hv, if_neg h2]
        rw [hstep]
        exact ih v o (n + 1) lg

theorem validTextsOf_eq (texts : List Str) :
    validTextsOf texts = (texts.filter isValidText).map trimWhitespace := by
  have h := (validStep_foldl texts [] [] 0 []).1
  simpa [validTextsOf, validFilter] using h

theorem originalTextsOf_eq (texts : List Str) :
    originalTextsOf texts = texts.filter isValidText := by
  have h := (validStep_foldl texts [] [] 0 []).2
  simpa [originalTextsOf, validFilter] using h

/-- Inversion of a successful `GetBatchEmbeddings` call: the returned map is
the collected map, the valid-text list was non-empty, the key was present,
and the map is non-empty. -/
theorem getBatch_ok_eq {texts : List Str} {B : Int} {key : Str}
    {api : Nat → Nat → Except Nat (List Vec)} {m : EmbMap}
    (h : (GetBatchEmbeddings texts B key api).result = .ok m) :
    m = collectMap (originalTextsOf texts) (windowResults texts B api)
      ∧ validTextsOf texts ≠ [] ∧ key ≠ [] ∧ m ≠ [] := by
  simp only [GetBatchEmbeddings] at h
  split at h
  · simp at h
  · split at h
    · simp at h
    · split at h
      · split at h <;> simp at h
      · next hm =>
        simp only [BatchOut.mk.injEq] at h
        have hmeq : m = collectMap (originalTextsOf texts) (windowResults texts B api) := by
          have := h
          simp only [Except.ok.injEq] at this
          exact this.symm
        refine ⟨hmeq, ?_, ?_, ?_⟩
        · next h2 h1 =>
          intro hc
          apply h2
          simp [validTextsOf] at hc
          simp [hc]
        · next h2 h1 =>
          intro hc
          apply h1
          simp [hc]
        · rw [hmeq]
          intro hc
          apply hm
          simpa [List.isEmpty_iff] using hc

theorem getD_mem_of_lt {α : Type} {l : List α} {d : α} {n : Nat}
    (h : n < l.length) : l.getD n d ∈ l := by
  rw [List.getD_eq_getElem l d h]
  exact List.getElem_mem h

theorem validTextsOf_filter (texts : List Str) :
    validTextsOf (texts.filter isValidText) = validTextsOf texts := by
  rw [validTextsOf_eq, validTextsOf_eq, List.filter_filter]
  simp only [Bool.and_self]

theorem originalTextsOf_filter (texts : List Str) :
    originalTextsOf (texts.filter isValidText) = originalTextsOf texts := by
  rw [originalTextsOf_eq, originalTextsOf_eq, List.filter_filter]
  simp only [Bool.and_self]

/-- Texts rejected by the validity filter influence nothing but the logs:
running `GetBatchEmbeddings` on the pre-filtered list returns the same
result. -/
theorem getBatch_result_filter (texts : List Str) (B : Int) (key : Str)
    (api : Nat → Nat → Except Nat (List Vec)) :
    (GetBatchEmbeddings (texts.filter isValidText) B key api).result
      = (GetBatchEmbeddings texts B key api).result := by
  have hv : (validFilter (texts.filter isValidText)).1 = (validFilter texts).1 :=
    validTextsOf_filter texts
  have ho : (validFilter (texts.filter isValidText)).2.1 = (validFilter texts).2.1 :=
    originalTextsOf_filter texts
  have hw : windowResults (texts.filter isValidText) B api
      = windowResults texts B api := by
    unfold windowResults validTextsOf
    rw [hv]
  simp only [GetBatchEmbeddings, hv, ho, hw]
  by_cases h1 : (validFilter texts).1.isEmpty = true
  · simp [h1]
  · simp only [h1, if_false]
    by_cases h2 : key.isEmpty = true
    · simp [h2]
    · simp only [h2, if_false]
      by_cases h3 : (collectMap (validFilter texts).2.1
          (windowResults texts B api)).isEmpty = true
      · simp only [h3, if_true]
        cases herrs : collectErrors (windowResults texts B api) <;> rfl
      · simp [h3]

/-- **C6**.  For every text list `L` and batch size `B`, the keys of the
mapping returned by `GetBatchEmbeddings(L, B)` are a subset of the members
of `L` that are non-empty after trimming and within the 8192-token ceiling
(texts failing either test are excluded without producing an error by
themselves: pre-filtering them away leaves the result unchanged), and
every value in the mapping is a vector of nonzero length. -/
theorem C6_keys_valid_values_nonzero (texts : List Str) (batchSize : Int)
    (apiKey : Str) (api : Nat → Nat → Except Nat (List Vec)) (m : EmbMap)
    (h : (GetBatchEmbeddings texts batchSize apiKey api).result = .ok m) :
    (∀ p ∈ m, p.1 ∈ texts ∧ trimWhitespace p.1 ≠ []
        ∧ (trimWhitespace p.1).length / 4 ≤ MaxTokenLimit ∧ 0 < p.2.length)
    ∧ (GetBatchEmbeddings (texts.filter isValidText) batchSize apiKey api).result
        = (GetBatchEmbeddings texts batchSize apiKey api).result := by
  obtain ⟨hmeq, -, -, -⟩ := getBatch_ok_eq h
  subst hmeq
  refine ⟨?_, getBatch_result_filter texts batchSize apiKey api⟩
  intro p hp
  obtain ⟨r, hr, herr, idx, hidx, hidxt, hidxo, hpe⟩ := mem_collectMap hp
  have hkey : p.1 ∈ originalTextsOf texts := by
    rw [hpe]
    exact getD_mem_of_lt hidxo
  rw [originalTextsOf_eq] at hkey
  obtain ⟨hmem, hvalid⟩ := List.mem_filter.mp hkey
  obtain ⟨hne, hlim⟩ := isValidText_iff.mp hvalid
  refine ⟨hmem, ?_, hlim, ?_⟩
  · intro hc
    exact hne (by simp [hc])
  · obtain ⟨w, hw, rfl⟩ := List.mem_map.mp hr
    have hv : p.2 ∈ (runWindow (api w.1) w.1 w.2).Embeddings := by
      rw [hpe]
      exact getD_mem_of_lt hidx
    have := runWindow_Embeddings_nonempty (api w.1) w.1 w.2 p.2 hv
    exact List.length_pos.mpr this

/-- Witness for C6 at `L = ["a", ""]`, `B = 1`, with an API returning one
vector `[7]`. -/
theorem C6_keys_valid_values_nonzero_witness :
    (∀ p ∈ ([(['a'], [7])] : EmbMap), p.1 ∈ [['a'], ([] : Str)]
        ∧ trimWhitespace p.1 ≠ []
        ∧ (trimWhitespace p.1).length / 4 ≤ MaxTokenLimit ∧ 0 < p.2.length)
    ∧ (GetBatchEmbeddings ([['a'], ([] : Str)].filter isValidText) 1 ['k']
          (fun _ _ => .ok [[7]])).result
        = (GetBatchEmbeddings [['a'], ([] : Str)] 1 ['k']
              (fun _ _ => .ok [[7]])).result :=
  C6_keys_valid_values_nonzero [['a'], ([] : Str)] 1 ['k']
    (fun _ _ => .ok [[7]]) [(['a'], [7])] (by decide)

/-- **C10**.  Whenever `GetBatchEmbeddings` returns a nil error, the
returned mapping contains at least one entry: success is only possible
after at least one embedding was collected. -/
theorem C10_ok_map_nonempty (texts : List Str) (batchSize : Int)
    (apiKey : Str) (api : Nat → Nat → Except Nat (List Vec)) (m : EmbMap)
    (h : (GetBatchEmbeddings texts batchSize apiKey api).result = .ok m) :
    m ≠ [] :=
  (getBatch_ok_eq h).2.2.2

/-- Witness for C10: a one-text call that succeeds returns the non-empty
map `[("a", [7])]`. -/
theorem C10_ok_map_nonempty_witness :
    ([((['a'] : Str), ([7] : Vec))] : EmbMap) ≠ [] :=
  C10_ok_map_nonempty [['a']] 1 ['k'] (fun _ _ => .ok [[7]])
    [(['a'], [7])] (by decide)

/-! ### C3: when does `GetBatchEmbeddings` fail? -/

/-- **C3** (amended).  Given at least one valid text and an API key,
`GetBatchEmbeddings` returns an error if and only if the assembled mapping
is empty — i.e. no text received an embedding.  (The original claim said
"if and only if zero batch windows succeeded", but a window that succeeds
while contributing no non-empty vectors counts for nothing: if every
window is such, the call still fails — see `C3_counterexample`.)  When the
mapping is non-empty the call returns it with no error, tolerating fewer
entries than valid texts, and in that lossy case a warning carrying the
collected/total counts is logged. -/
theorem C3_error_iff_empty_map (texts : List Str) (batchSize : Int)
    (apiKey : Str) (api : Nat → Nat → Except Nat (List Vec))
    (hvalid : validTextsOf texts ≠ []) (hkey : apiKey ≠ []) :
    ((∃ e, (GetBatchEmbeddings texts batchSize apiKey api).result = .error e)
      ↔ collectMap (originalTextsOf texts) (windowResults texts batchSize api) = [])
    ∧ (collectMap (originalTextsOf texts) (windowResults texts batchSize api) ≠ [] →
        (GetBatchEmbeddings texts batchSize apiKey api).result
          = .ok (collectMap (originalTextsOf texts)
              (windowResults texts batchSize api)))
    ∧ (∀ m, (GetBatchEmbeddings texts batchSize apiKey api).result = .ok m →
        m.length < (validTextsOf texts).length →
        LogEvent.lostWarning m.length (validTextsOf texts).length
          ∈ (GetBatchEmbeddings texts batchSize apiKey api).logs) := by
  have h1 : ¬(validFilter texts).1.isEmpty = true := by
    simp only [List.isEmpty_iff]
    exact hvalid
  have h2 : ¬apiKey.isEmpty = true := by
    simp only [List.isEmpty_iff]
    exact hkey
  have hok : collectMap (originalTextsOf texts) (windowResults texts batchSize api) ≠ [] →
      (GetBatchEmbeddings texts batchSize apiKey api).result
        = .ok (collectMap (originalTextsOf texts)
            (windowResults texts batchSize api)) := by
    intro hne
    simp only [GetBatchEmbeddings]
    rw [if_neg h1, if_neg h2,
      if_neg (show ¬(collectMap (validFilter texts).2.1
          (windowResults texts batchSize api)).isEmpty = true by
        simp only [List.isEmpty_iff]
        exact hne)]
    rfl
  have herr : collectMap (originalTextsOf texts) (windowResults texts batchSize api) = [] →
      ∃ e, (GetBatchEmbeddings texts batchSize apiKey api).result = .error e := by
    intro hMe
    simp only [GetBatchEmbeddings]
    rw [if_neg h1, if_neg h2,
      if_pos (show (collectMap (validFilter texts).2.1
          (windowResults texts batchSize api)).isEmpty = true by
        simp only [List.isEmpty_iff]
        exact hMe)]
    cases herrs : collectErrors (windowResults texts batchSize api) with
    | nil => exact ⟨.embeddingFailed, rfl⟩
    | cons e es => exact ⟨.allBatchesFailed e, rfl⟩
  have hlogs : collectMap (originalTextsOf texts) (windowResults texts batchSize api) ≠ [] →
      (GetBatchEmbeddings texts batchSize apiKey api).logs
        = ((validFilter texts).2.2.2
            ++ (if 0 < (validFilter texts).2.2.1
                then [LogEvent.skippedCount (validFilter texts).2.2.1] else []))
          ++ (if (collectMap (validFilter texts).2.1
                  (windowResults texts batchSize api)).length
                < (validFilter texts).1.length
              then [LogEvent.lostWarning
                  (collectMap (validFilter texts).2.1
                    (windowResults texts batchSize api)).length
                  (validFilter texts).1.length]
              else []) := by
    intro hne
    simp only [GetBatchEmbeddings]
    rw [if_neg h1, if_neg h2,
      if_neg (show ¬(collectMap (validFilter texts).2.1
          (windowResults texts batchSize api)).isEmpty = true by
        simp only [List.isEmpty_iff]
        exact hne)]
  refine ⟨⟨?_, herr⟩, hok, ?_⟩
  · rintro ⟨e, he⟩
    by_contra hne
    rw [hok hne] at he
    exact Except.noConfusion he
  · intro m hm hlt
    have hne : collectMap (originalTextsOf texts) (windowResults texts batchSize api) ≠ [] := by
      intro hMe
      obtain ⟨e, he⟩ := herr hMe
      rw [hm] at he
      exact Except.noConfusion he
    have hmeq : m = collectMap (originalTextsOf texts) (windowResults texts batchSize api) := by
      have hthis := hok hne
      rw [hm] at hthis
      exact Except.ok.inj hthis
    subst hmeq
    rw [hlogs hne]
    have hlt' : (collectMap (validFilter texts).2.1
          (windowResults texts batchSize api)).length
        < (validFilter texts).1.length := hlt
    rw [if_pos hlt']
    have hev : LogEvent.lostWarning
          (collectMap (originalTextsOf texts) (windowResults texts batchSize api)).length
          (validTextsOf texts).length
        = LogEvent.lostWarning
            (collectMap (validFilter texts).2.1 (windowResults texts batchSize api)).length
            (validFilter texts).1.length := rfl
    rw [hev]
    simp

/-- An API whose calls all "succeed" with an empty data list. -/
def c3Api : Nat → Nat → Except Nat (List Vec) := fun _ _ => .ok []

/-- **C3** counterexample.  With one valid text and an API key, every batch
window succeeds (`Error = none` for each window result), yet
`GetBatchEmbeddings` returns `ErrEmbeddingFailed` because the successful
window contributed no vectors — refuting "returns an error if and only if
zero batch windows succeeded". -/
theorem C3_counterexample :
    (∀ r ∈ windowResults [['a']] 1 c3Api, r.Error = none)
    ∧ (GetBatchEmbeddings [['a']] 1 ['k'] c3Api).result
        = .error .embeddingFailed := by decide

/-- Witness: `C3_error_iff_empty_map` at one valid text and an API
returning `[[7]]`. -/
theorem C3_error_iff_empty_map_witness :
    (validTextsOf [['a']] ≠ [] ∧ (['k'] : Str) ≠ [])
    ∧ (((∃ e, (GetBatchEmbeddings [['a']] 1 ['k']
            (fun _ _ => .ok [[7]])).result = .error e)
        ↔ collectMap (originalTextsOf [['a']])
            (windowResults [['a']] 1 (fun _ _ => .ok [[7]])) = [])
      ∧ (collectMap (originalTextsOf [['a']])
            (windowResults [['a']] 1 (fun _ _ => .ok [[7]])) ≠ [] →
          (GetBatchEmbeddings [['a']] 1 ['k']
              (fun _ _ => .ok [[7]])).result
            = .ok (collectMap (originalTextsOf [['a']])
                (windowResults [['a']] 1 (fun _ _ => .ok [[7]]))))
      ∧ (∀ m, (GetBatchEmbeddings [['a']] 1 ['k']
            (fun _ _ => .ok [[7]])).result = .ok m →
          m.length < (validTextsOf [['a']]).length →
          LogEvent.lostWarning m.length (validTextsOf [['a']]).length
            ∈ (GetBatchEmbeddings [['a']] 1 ['k']
                (fun _ _ => .ok [[7]])).logs)) :=
  ⟨⟨by decide, by decide⟩,
    C3_error_iff_empty_map [['a']] 1 ['k'] (fun _ _ => .ok [[7]])
      (by decide) (by decide)⟩

/-! ### C2: positional pairing of response vectors and request texts -/

theorem runAttempts_ok_exists {call : Nat → Except Nat (List Vec)} :
    ∀ (l : List Nat) (e0 : Nat) (d : List Vec),
      runAttempts call l e0 = .ok d → ∃ a ∈ l, call a = .ok d := by
  intro l
  induction l with
  | nil => intro e0 d h; exact absurd h (by simp [runAttempts])
  | cons a rest ih =>
    intro e0 d h
    simp only [runAttempts] at h
    cases hc : call a with
    | ok d' =>
      rw [hc] at h
      refine ⟨a, List.mem_cons_self _ _, ?_⟩
      rw [hc]
      exact h
    | error e =>
      rw [hc] at h
      obtain ⟨a', ha', hc'⟩ := ih e d h
      exact ⟨a', List.mem_cons_of_mem _ ha', hc'⟩

theorem runWindow_ok {call : Nat → Except Nat (List Vec)} {startIdx : Nat}
    {textBatch : List Str}
    (h : (runWindow call startIdx textBatch).Error = none) :
    ∃ data, runAttempts call attemptNums 0 = .ok data
      ∧ (runWindow call startIdx textBatch).Embeddings
          = data.filter (fun v => !v.isEmpty) := by
  unfold runWindow at h ⊢
  cases hr : runAttempts call attemptNums 0 with
  | error e =>
    rw [hr] at h
    exact absurd h (by simp)
  | ok data => exact ⟨data, rfl, rfl⟩

/-- **C2** (amended).  Under an API whose response vectors are all
non-empty, every entry of the mapping returned by `GetBatchEmbeddings`
pairs `originalTexts[StartIndex + N]` with the `N`-th response vector of
the window starting at `StartIndex` — no entry ever pairs a text with a
vector of a different position or window.  (As stated, the claim fails
when a response contains an *empty* vector: the code silently drops empty
vectors before pairing, shifting each later vector onto an earlier text —
see `C2_counterexample`.) -/
theorem C2_positional_pairing (texts : List Str) (batchSize : Int)
    (apiKey : Str) (api : Nat → Nat → Except Nat (List Vec))
    (hapi : ∀ i a d, api i a = .ok d → ∀ v ∈ d, v ≠ ([] : Vec))
    (m : EmbMap)
    (h : (GetBatchEmbeddings texts batchSize apiKey api).result = .ok m) :
    ∀ p ∈ m, ∃ i batch data idx,
      (i, batch) ∈ mkWindows (normBatchSize batchSize) 0 (validTextsOf texts)
      ∧ runAttempts (api i) attemptNums 0 = .ok data
      ∧ idx < data.length ∧ idx < batch.length
      ∧ i + idx < (originalTextsOf texts).length
      ∧ p = ((originalTextsOf texts).getD (i + idx) [], data.getD idx []) := by
  obtain ⟨hmeq, -, -, -⟩ := getBatch_ok_eq h
  subst hmeq
  intro p hp
  obtain ⟨r, hr, herr, idx, hidx, hidxt, hidxo, hpe⟩ := mem_collectMap hp
  obtain ⟨w, hw, rfl⟩ := List.mem_map.mp hr
  obtain ⟨data, hdata, hembs⟩ := runWindow_ok herr
  have hall : ∀ v ∈ data, (!v.isEmpty) = true := by
    intro v hv
    obtain ⟨a, -, hc⟩ := runAttempts_ok_exists attemptNums 0 data hdata
    have hne := hapi w.1 a data hc v hv
    simp [List.isEmpty_iff, hne]
  have hfe : data.filter (fun v => !v.isEmpty) = data :=
    List.filter_eq_self.mpr hall
  rw [hfe] at hembs
  rw [hembs] at hidx hpe
  rw [runWindow_Texts] at hidxt
  rw [runWindow_StartIndex] at hidxo hpe
  exact ⟨w.1, w.2, data, idx, hw, hdata, hidx, hidxt, hidxo, hpe⟩

/-- An API whose single response contains an empty vector followed by a
non-empty one. -/
def c2Api : Nat → Nat → Except Nat (List Vec) := fun _ _ => .ok [[], [5]]

/-- **C2** counterexample.  One window holds the two texts `"a"`, `"b"`;
the response's 0th vector is empty and its 1st is `[5]`.  The code drops
the empty vector and stores `[5]` — the 1st response vector — against the
0th request text `"a"`, while `"b"` gets nothing: the `N`-th response
vector is *not* stored against the `N`-th request text, and a chunk is
paired with a different chunk's vector. -/
theorem C2_counterexample :
    (GetBatchEmbeddings [['a'], ['b']] 2 ['k'] c2Api).result
        = .ok [(['a'], [5])]
    ∧ c2Api 0 1 = .ok [[], [5]]
    ∧ ([[], [5]] : List Vec).getD 0 [] = []
    ∧ mapFind [(['a'], [5])] ['a'] = some [5]
    ∧ some ([5] : Vec) ≠ some ([] : Vec)
    ∧ mapFind [(['a'], [5])] ['b'] = none := by decide

/-- Witness: `C2_positional_pairing` at one text and an all-non-empty
response `[[7]]`. -/
theorem C2_positional_pairing_witness :
    (∀ i a d, ((fun _ _ => Except.ok [[7]]) : Nat → Nat → Except Nat (List Vec)) i a
        = .ok d → ∀ v ∈ d, v ≠ ([] : Vec))
    ∧ (∀ p ∈ ([(['a'], [7])] : EmbMap), ∃ i batch data idx,
        (i, batch) ∈ mkWindows (normBatchSize 1) 0 (validTextsOf [['a']])
        ∧ runAttempts (((fun _ _ => Except.ok [[7]]) :
              Nat → Nat → Except Nat (List Vec)) i) attemptNums 0 = .ok data
        ∧ idx < data.length ∧ idx < batch.length
        ∧ i + idx < (originalTextsOf [['a']]).length
        ∧ p = ((originalTextsOf [['a']]).getD (i + idx) [], data.getD idx [])) :=
  have hapi : ∀ i a d, ((fun _ _ => Except.ok [[7]]) :
      Nat → Nat → Except Nat (List Vec)) i a = .ok d → ∀ v ∈ d, v ≠ ([] : Vec) := by
    intro i a d hd v hv
    injection hd with hd'
    subst hd'
    simp only [List.mem_singleton] at hv
    subst hv
    decide
  ⟨hapi, C2_positional_pairing [['a']] 1 ['k'] (fun _ _ => Except.ok [[7]])
    hapi [(['a'], [7])] (by decide)⟩

/-! ### C5: the per-window retry bound and window abandonment -/

theorem numAttempts_le (call : Nat → Except Nat (List Vec)) :
    ∀ l : List Nat, numAttempts call l ≤ l.length := by
  intro l
  induction l with
  | nil => simp [numAttempts]
  | cons a rest ih =>
    simp only [numAttempts, List.length_cons]
    cases call a with
    | ok d =>
      show (1 : Nat) ≤ rest.length + 1
      omega
    | error e =>
      show 1 + numAttempts call rest ≤ rest.length + 1
      omega

theorem runAttempts_error_of_all_fail {call : Nat → Except Nat (List Vec)} :
    ∀ (l : List Nat) (e0 : Nat), (∀ a ∈ l, ∃ e, call a = .error e) →
      ∃ e, runAttempts call l e0 = .error e := by
  intro l
  induction l with
  | nil => intro e0 _; exact ⟨e0, rfl⟩
  | cons a rest ih =>
    intro e0 hfail
    obtain ⟨e, he⟩ := hfail a (List.mem_cons_self _ _)
    simp only [runAttempts, he]
    exact ih e fun a' ha' => hfail a' (List.mem_cons_of_mem _ ha')

/-- **C5**.  For every batch window: the retry loop performs at most 3
remote calls; if all 3 attempts fail, the window result carries an error;
an errored window result contributes no entries to the collected map; its
error appears in the collected error list; and dropping an errored window
result from the collection leaves the collected map unchanged (sibling
windows are unaffected). -/
theorem C5_retry_and_abandonment :
    (∀ call : Nat → Except Nat (List Vec), numAttempts call attemptNums ≤ 3)
    ∧ (∀ (call : Nat → Except Nat (List Vec)) (i : Nat) (batch : List Str),
        (∀ a ∈ attemptNums, ∃ e, call a = .error e) →
        ∃ e, (runWindow call i batch).Error = some e)
    ∧ (∀ (orig : List Str) (m : EmbMap) (r : batchResult),
        r.Error.isSome → processResult orig m r = m)
    ∧ (∀ (results : List batchResult) (r : batchResult) (e : Nat),
        r ∈ results → r.Error = some e → e ∈ collectErrors results)
    ∧ (∀ (orig : List Str) (rs1 : List batchResult) (r : batchResult)
        (rs2 : List batchResult), r.Error.isSome →
        collectMap orig (rs1 ++ r :: rs2) = collectMap orig (rs1 ++ rs2)) := by
  have hskip : ∀ (orig : List Str) (m : EmbMap) (r : batchResult),
      r.Error.isSome → processResult orig m r = m := by
    intro orig m r hr
    unfold processResult
    cases he : r.Error with
    | none => rw [he] at hr; exact absurd hr (by simp)
    | some e => rfl
  refine ⟨?_, ?_, hskip, ?_, ?_⟩
  · intro call
    have := numAttempts_le call attemptNums
    simpa using this
  · intro call i batch hfail
    obtain ⟨e, he⟩ := runAttempts_error_of_all_fail attemptNums 0 hfail
    refine ⟨e, ?_⟩
    unfold runWindow
    rw [he]
  · intro results r e hmem hre
    unfold collectErrors
    exact List.mem_filterMap.mpr ⟨r, hmem, hre⟩
  · intro orig rs1 r rs2 hr
    unfold collectMap
    rw [List.foldl_append, List.foldl_append, List.foldl_cons, hskip orig _ r hr]

/-- A concrete window result whose retry loop exhausted all attempts. -/
def c5FailedResult : batchResult :=
  { Texts := [['a']], StartIndex := 0, Embeddings := [], Error := some 9 }

/-- Witness: the C5 facts at an always-failing call (error code 9) and a
concrete errored window result. -/
theorem C5_retry_and_abandonment_witness :
    numAttempts (fun _ => Except.error 9) attemptNums ≤ 3
    ∧ (∃ e, (runWindow (fun _ => Except.error 9) 0 [['a']]).Error = some e)
    ∧ processResult [] [] c5FailedResult = []
    ∧ 9 ∈ collectErrors [c5FailedResult]
    ∧ collectMap [] ([] ++ c5FailedResult :: []) = collectMap [] ([] ++ []) := by
  obtain ⟨h1, h2, h3, h4, h5⟩ := C5_retry_and_abandonment
  refine ⟨h1 _, h2 _ 0 [['a']] (fun a _ => ⟨9, rfl⟩), h3 [] [] _ (by decide),
    h4 _ _ 9 (List.mem_cons_self _ _) rfl, h5 [] [] _ [] (by decide)⟩

/-! ## `main.go`: `processFile` and `indexCodebase`

`storage.SaveToJSON` serialises the record list unchanged and writes it;
persistence is modelled by the `save` parameter, and the saved records are
exactly the list handed to it. -/

/-- `storage.CodeChunk` (the persisted CodeRecord). -/
structure CodeChunk where
  File : Str
  Content : Str
  Embedding : Vec
  deriving DecidableEq, Repr

def DefaultMaxChunkSize : Int := 8000

def DefaultBatchSize : Int := 20

inductive PFErr where
  | readError (e : Nat)
  | embedError (e : EmbError)
  deriving DecidableEq, Repr

/-- The zip loop of `processFile`: `fileChunks[i].Content` and
`chunksToEmbed[i]` are both `chunkedCode[i]`, so iterating over
`chunkedCode` is the source's index-aligned loop; a chunk whose text is
absent from the embedding map is dropped. -/
def zipStep (file : Str) (embedMap : EmbMap) (validChunks : List CodeChunk)
    (chunk : Str) : List CodeChunk :=
  match mapFind embedMap chunk with
  | some embedding =>
    validChunks ++ [{ File := file, Content := chunk, Embedding := embedding }]
  | none => validChunks

/-- `main.processFile`: read the file, chunk it, embed all chunks in one
batch call, zip embeddings back onto their chunks.  Reading and the remote
API are explicit parameters. -/
def processFile (file : Str) (readResult : Except Nat Str) (apiKey : Str)
    (api : Nat → Nat → Except Nat (List Vec)) : Except PFErr (List CodeChunk) :=
  match readResult with
  | .error e => .error (.readError e)
  | .ok content =>
    let chunkedCode := SplitCodeIntoChunks content DefaultMaxChunkSize
    if chunkedCode.isEmpty then .ok []
    else
      match (GetBatchEmbeddings chunkedCode DefaultBatchSize apiKey api).result with
      | .error e => .error (.embedError e)
      | .ok embedMap => .ok (chunkedCode.foldl (zipStep file embedMap) [])

inductive RunOutcome where
  | fatalScan (e : Nat)
  | fatalNoFiles
  | fatalSave (e : Nat)
  | fatalNoChunks
  | success (records : List CodeChunk) (errorCount : Nat)
  deriving DecidableEq, Repr

/-- The worker pool's per-file results, in file order (collection order is
nondeterministic in the Go code; nothing proved here depends on it). -/
def indexResults (files : List Str) (reads : Str → Except Nat Str)
    (apiKey : Str) (api : Str → Nat → Nat → Except Nat (List Vec)) :
    List (Except PFErr (List CodeChunk)) :=
  files.map (fun f => processFile f (reads f) apiKey (api f))

/-- `allChunks`: the concatenation of all successful per-file results. -/
def indexAllChunks (results : List (Except PFErr (List CodeChunk))) :
    List CodeChunk :=
  (results.filterMap (fun r => r.toOption)).flatten

/-- `processingErrors`. -/
def indexErrors (results : List (Except PFErr (List CodeChunk))) : List PFErr :=
  results.filterMap (fun r => match r with | .error e => some e | .ok _ => none)

/-- `main.indexCodebase`: scan, process every file, aggregate, then either
persist (`success` / `fatalSave`) or die with
"No code chunks were processed successfully" (`fatalNoChunks`).  `scan` is
the `(files, err)` pair from `GetCodeFiles`; `save` models
`storage.SaveToJSON`. -/
def indexCodebase (scan : List Str × Option Nat) (reads : Str → Except Nat Str)
    (apiKey : Str) (api : Str → Nat → Nat → Except Nat (List Vec))
    (save : List CodeChunk → Option Nat) : RunOutcome :=
  match scan.2 with
  | some e => .fatalScan e
  | none =>
    if scan.1.isEmpty then .fatalNoFiles
    else
      let results := indexResults scan.1 reads apiKey api
      let allChunks := indexAllChunks results
      if 0 < allChunks.length then
        match save allChunks with
        | some e => .fatalSave e
        | none => .success allChunks (indexErrors results).length
      else .fatalNoChunks

/-! ### Lemmas for C7/C8 -/

theorem mapFind_mem {m : EmbMap} {k : Str} {v : Vec}
    (h : mapFind m k = some v) : (k, v) ∈ m := by
  induction m with
  | nil => simp [mapFind] at h
  | cons kv rest ih =>
    obtain ⟨k', v'⟩ := kv
    simp only [mapFind] at h
    split at h
    · next heq =>
      injection h with h'
      subst heq
      subst h'
      exact List.mem_cons_self _ _
    · exact List.mem_cons_of_mem _ (ih h)

/-- Every entry of a successfully returned embedding map keys an original
valid text to a non-empty vector (shared by the C6 and C7 arguments). -/
theorem getBatch_ok_entry {texts : List Str} {B : Int} {key : Str}
    {api : Nat → Nat → Except Nat (List Vec)} {m : EmbMap}
    (h : (GetBatchEmbeddings texts B key api).result = .ok m) :
    ∀ p ∈ m, p.1 ∈ texts ∧ 0 < p.2.length := by
  obtain ⟨hmeq, -, -, -⟩ := getBatch_ok_eq h
  subst hmeq
  intro p hp
  obtain ⟨r, hr, herr, idx, hidx, hidxt, hidxo, hpe⟩ := mem_collectMap hp
  constructor
  · have hkey : p.1 ∈ originalTextsOf texts := by
      rw [hpe]
      exact getD_mem_of_lt hidxo
    rw [originalTextsOf_eq] at hkey
    exact (List.mem_filter.mp hkey).1
  · obtain ⟨w, hw, rfl⟩ := List.mem_map.mp hr
    have hv : p.2 ∈ (runWindow (api w.1) w.1 w.2).Embeddings := by
      rw [hpe]
      exact getD_mem_of_lt hidx
    exact List.length_pos.mpr (runWindow_Embeddings_nonempty (api w.1) w.1 w.2 p.2 hv)

theorem mem_zipFold {file : Str} {embedMap : EmbMap} :
    ∀ (l : List Str) (acc : List CodeChunk) (c : CodeChunk),
      c ∈ l.foldl (zipStep file embedMap) acc →
      c ∈ acc ∨ (c.File = file ∧ c.Content ∈ l
        ∧ mapFind embedMap c.Content = some c.Embedding) := by
  intro l
  induction l with
  | nil => intro acc c hc; exact Or.inl hc
  | cons chunk rest ih =>
    intro acc c hc
    rw [List.foldl_cons] at hc
    rcases ih _ c hc with hc' | ⟨h1, h2, h3⟩
    · unfold zipStep at hc'
      split at hc'
      · next emb heq =>
        rcases List.mem_append.mp hc' with hc'' | hc''
        · exact Or.inl hc''
        · simp only [List.mem_singleton] at hc''
          subst hc''
          exact Or.inr ⟨rfl, List.mem_cons_self _ _, heq⟩
      · exact Or.inl hc'
    · exact Or.inr ⟨h1, List.mem_cons_of_mem _ h2, h3⟩

/-- Inversion of a successful `processFile`. -/
theorem processFile_ok {file : Str} {readResult : Except Nat Str} {apiKey : Str}
    {api : Nat → Nat → Except Nat (List Vec)} {chunks : List CodeChunk}
    (h : processFile file readResult apiKey api = .ok chunks) :
    ∃ content, readResult = .ok content ∧
      (chunks = [] ∨ ∃ embedMap,
        (GetBatchEmbeddings (SplitCodeIntoChunks content DefaultMaxChunkSize)
            DefaultBatchSize apiKey api).result = .ok embedMap
        ∧ chunks = (SplitCodeIntoChunks content DefaultMaxChunkSize).foldl
            (zipStep file embedMap) []) := by
  unfold processFile at h
  cases readResult with
  | error e => exact absurd h (by simp)
  | ok content =>
    refine ⟨content, rfl, ?_⟩
    simp only at h
    split at h
    · injection h with h'
      exact Or.inl h'.symm
    · split at h
      · exact absurd h (by simp)
      · next embedMap heq =>
        injection h with h'
        exact Or.inr ⟨embedMap, heq, h'.symm⟩

theorem toOption_eq_some {r : Except PFErr (List CodeChunk)}
    {lst : List CodeChunk} (h : r.toOption = some lst) : r = .ok lst := by
  cases r with
  | error e => simp [Except.toOption] at h
  | ok l =>
    simp only [Except.toOption, Option.some.injEq] at h
    rw [h]

/-- **C7**.  Every CodeRecord emitted by `processFile` carries its
originating file, one of that file's chunks as content, and a non-empty
embedding vector — a chunk absent from the embedding map is dropped — and
every record in a successful `indexCodebase` run's persisted aggregate has
a non-empty embedding: no record is ever persisted with a nil/empty
vector. -/
theorem C7_records_carry_embeddings :
    (∀ (file : Str) (readResult : Except Nat Str) (apiKey : Str)
        (api : Nat → Nat → Except Nat (List Vec)) (chunks : List CodeChunk),
      processFile file readResult apiKey api = .ok chunks →
      ∀ c ∈ chunks, c.File = file ∧ 0 < c.Embedding.length
        ∧ ∃ content, readResult = .ok content
            ∧ c.Content ∈ SplitCodeIntoChunks content DefaultMaxChunkSize)
    ∧ (∀ (scan : List Str × Option Nat) (reads : Str → Except Nat Str)
        (apiKey : Str) (api : Str → Nat → Nat → Except Nat (List Vec))
        (save : List CodeChunk → Option Nat) (recs : List CodeChunk) (ec : Nat),
      indexCodebase scan reads apiKey api save = .success recs ec →
      ∀ c ∈ recs, 0 < c.Embedding.length) := by
  have hfile : ∀ (file : Str) (readResult : Except Nat Str) (apiKey : Str)
      (api : Nat → Nat → Except Nat (List Vec)) (chunks : List CodeChunk),
      processFile file readResult apiKey api = .ok chunks →
      ∀ c ∈ chunks, c.File = file ∧ 0 < c.Embedding.length
        ∧ ∃ content, readResult = .ok content
            ∧ c.Content ∈ SplitCodeIntoChunks content DefaultMaxChunkSize := by
    intro file readResult apiKey api chunks h c hc
    obtain ⟨content, hread, hrest⟩ := processFile_ok h
    rcases hrest with rfl | ⟨embedMap, hok, rfl⟩
    · simp at hc
    · rcases mem_zipFold _ [] c hc with hcc | ⟨h1, h2, h3⟩
      · simp at hcc
      · have hmem := mapFind_mem h3
        have hlen := (getBatch_ok_entry hok (c.Content, c.Embedding) hmem).2
        exact ⟨h1, hlen, content, hread, h2⟩
  refine ⟨hfile, ?_⟩
  intro scan reads apiKey api save recs ec h c hc
  unfold indexCodebase at h
  cases hscan : scan.2 with
  | some e => rw [hscan] at h; exact absurd h (by simp)
  | none =>
    rw [hscan] at h
    simp only at h
    split at h
    · exact absurd h (by simp)
    · split at h
      · split at h
        · exact absurd h (by simp)
        · injection h with h1 h2
          subst h1
          obtain ⟨lst, hlst, hclst⟩ := List.mem_flatten.mp hc
          obtain ⟨r, hr, hrlst⟩ := List.mem_filterMap.mp hlst
          obtain ⟨f, hf, hfr⟩ := List.mem_map.mp hr
          have hrok : r = .ok lst := toOption_eq_some hrlst
          rw [hrok] at hfr
          exact (hfile f (reads f) apiKey (api f) lst hfr c hclst).2.1
      · exact absurd h (by simp)

/-- Witness: `C7_records_carry_embeddings` at one file containing `"ab"`
and an API answering `[[1]]`. -/
theorem C7_records_carry_embeddings_witness :
    (∀ c ∈ ([⟨['f'], ['a', 'b'], [1]⟩] : List CodeChunk),
      c.File = ['f'] ∧ 0 < c.Embedding.length
        ∧ ∃ content, (Except.ok ['a', 'b'] : Except Nat Str) = .ok content
            ∧ c.Content ∈ SplitCodeIntoChunks content DefaultMaxChunkSize)
    ∧ (∀ c ∈ ([⟨['f'], ['a', 'b'], [1]⟩] : List CodeChunk),
      0 < c.Embedding.length) :=
  ⟨(C7_records_carry_embeddings).1 ['f'] (.ok ['a', 'b']) ['k']
      (fun _ _ => .ok [[1]]) [⟨['f'], ['a', 'b'], [1]⟩] (by decide),
    (C7_records_carry_embeddings).2 ([['f']], none) (fun _ => .ok ['a', 'b'])
      ['k'] (fun _ => fun _ _ => .ok [[1]]) (fun _ => none)
      [⟨['f'], ['a', 'b'], [1]⟩] 0 (by decide)⟩

/-- **C8**.  With a successful scan of a non-empty file list: if zero
records were produced the run ends in the fatal
"No code chunks were processed successfully" outcome, even when zero
errors were recorded; if at least one record exists and the write
succeeds, the run succeeds and persists exactly the aggregate.  An empty
file yields zero chunks (`SplitCodeIntoChunks "" M = []`) and a clean
empty per-file result, so a directory holding only one empty file reaches
the fatal no-chunks outcome. -/
theorem C8_zero_records_fatal
    (scan : List Str × Option Nat) (reads : Str → Except Nat Str)
    (apiKey : Str) (api : Str → Nat → Nat → Except Nat (List Vec))
    (save : List CodeChunk → Option Nat) (files : List Str)
    (hscan : scan = (files, none)) (hne : files ≠ []) :
    (indexAllChunks (indexResults files reads apiKey api) = [] →
      indexCodebase scan reads apiKey api save = .fatalNoChunks)
    ∧ (indexAllChunks (indexResults files reads apiKey api) ≠ [] →
        save (indexAllChunks (indexResults files reads apiKey api)) = none →
        indexCodebase scan reads apiKey api save
          = .success (indexAllChunks (indexResults files reads apiKey api))
              (indexErrors (indexResults files reads apiKey api)).length)
    ∧ (∀ M : Int, SplitCodeIntoChunks [] M = [])
    ∧ (∀ (f : Str) (key2 : Str) (api2 : Nat → Nat → Except Nat (List Vec)),
        processFile f (.ok []) key2 api2 = .ok []) := by
  subst hscan
  refine ⟨?_, ?_, fun M => rfl, fun f key2 api2 => rfl⟩
  · intro hempty
    unfold indexCodebase
    simp only
    rw [if_neg (by simp [List.isEmpty_iff, hne])]
    rw [if_neg (by simp [hempty])]
  · intro hnonempty hsave
    unfold indexCodebase
    simp only
    rw [if_neg (by simp [List.isEmpty_iff, hne])]
    rw [if_pos (by simpa [List.length_pos] using hnonempty)]
    rw [hsave]

/-- Witness: `C8_zero_records_fatal` on a directory with one empty file —
the spec's end-to-end scenario 2 (zero chunks, zero records, fatal
no-chunks outcome). -/
theorem C8_zero_records_fatal_witness :
    ((([['f']], none) : List Str × Option Nat) = ([['f']], none)
      ∧ ([['f']] : List Str) ≠ [])
    ∧ ((indexAllChunks (indexResults [['f']] (fun _ => .ok []) ['k']
          (fun _ => fun _ _ => .ok [[1]])) = [] →
        indexCodebase ([['f']], none) (fun _ => .ok []) ['k']
            (fun _ => fun _ _ => .ok [[1]]) (fun _ => none) = .fatalNoChunks)
      ∧ (indexAllChunks (indexResults [['f']] (fun _ => .ok []) ['k']
            (fun _ => fun _ _ => .ok [[1]])) ≠ [] →
          (fun _ => (none : Option Nat)) (indexAllChunks (indexResults [['f']]
              (fun _ => .ok []) ['k'] (fun _ => fun _ _ => .ok [[1]]))) = none →
          indexCodebase ([['f']], none) (fun _ => .ok []) ['k']
              (fun _ => fun _ _ => .ok [[1]]) (fun _ => none)
            = .success (indexAllChunks (indexResults [['f']] (fun _ => .ok [])
                  ['k'] (fun _ => fun _ _ => .ok [[1]])))
                (indexErrors (indexResults [['f']] (fun _ => .ok []) ['k']
                    (fun _ => fun _ _ => .ok [[1]]))).length)
      ∧ (∀ M : Int, SplitCodeIntoChunks [] M = [])
      ∧ (∀ (f : Str) (key2 : Str) (api2 : Nat → Nat → Except Nat (List Vec)),
          processFile f (.ok []) key2 api2 = .ok [])) :=
  ⟨⟨rfl, by decide⟩,
    C8_zero_records_fatal ([['f']], none) (fun _ => .ok []) ['k']
      (fun _ => fun _ _ => .ok [[1]]) (fun _ => none) [['f']] rfl (by decide)⟩

/-! ## `embeddings.RateLimiter`

`Wait` is `semaphore <- struct{}{}` (blocks while `C` slots are held),
then `mu.Lock(); <-ticker.C; mu.Unlock()`; `Release` is `<-semaphore`.
The ticker is modelled as maximally permissive — a pulse is always
available — so the concurrency bound proved below holds *even when the
time pulse would admit more*.  A state assigns one phase per caller. -/

inductive RLPhase where
  | idle
  | waitingSem
  | waitingTick
  | running
  | released
  deriving DecidableEq, Repr

/-- Phases that occupy a semaphore slot: between the channel send in
`Wait` and the channel receive in `Release`. -/
def holdsSem : RLPhase → Bool
  | .waitingTick => true
  | .running => true
  | _ => false

/-- Past `Wait`, not yet `Release`d. -/
def isRunning : RLPhase → Bool
  | .running => true
  | _ => false

def semCount (s : List RLPhase) : Nat := s.countP holdsSem

def runningCount (s : List RLPhase) : Nat := s.countP isRunning

/-- Interleaving semantics of concurrent `Wait`/`Release` calls against a
semaphore channel of capacity `C`: the send in `Wait` proceeds only while
fewer than `C` slots are held; the ticker pulse (`tick`) is always
enabled; `Release` frees the caller's slot. -/
inductive RLStep (C : Nat) : List RLPhase → List RLPhase → Prop where
  | callWait (s : List RLPhase) (n : Nat) (h : s.get? n = some .idle) :
      RLStep C s (s.set n .waitingSem)
  | acquireSem (s : List RLPhase) (n : Nat) (h : s.get? n = some .waitingSem)
      (hc : semCount s < C) : RLStep C s (s.set n .waitingTick)
  | tick (s : List RLPhase) (n : Nat) (h : s.get? n = some .waitingTick) :
      RLStep C s (s.set n .running)
  | release (s : List RLPhase) (n : Nat) (h : s.get? n = some .running) :
      RLStep C s (s.set n .released)

/-- States reachable from `K` callers that have not yet called `Wait`. -/
inductive RLReachable (C K : Nat) : List RLPhase → Prop where
  | init : RLReachable C K (List.replicate K .idle)
  | step {s s' : List RLPhase} :
      RLReachable C K s → RLStep C s s' → RLReachable C K s'

theorem countP_set (p : RLPhase → Bool) :
    ∀ (l : List RLPhase) (n : Nat) (v old : RLPhase), l.get? n = some old →
      (l.set n v).countP p + (if p old then 1 else 0)
        = l.countP p + (if p v then 1 else 0) := by
  intro l
  induction l with
  | nil => intro n v old h; simp at h
  | cons x xs ih =>
    intro n v old h
    cases n with
    | zero =>
      simp only [List.get?, Option.some.injEq] at h
      subst h
      simp only [List.set, List.countP_cons]
      omega
    | succ n =>
      simp only [List.get?] at h
      simp only [List.set, List.countP_cons]
      have := ih n v old h
      omega

theorem semCount_replicate (K : Nat) :
    semCount (List.replicate K RLPhase.idle) = 0 := by
  induction K with
  | zero => rfl
  | succ K ih =>
    simp only [semCount, List.replicate_succ, List.countP_cons] at *
    simp [ih, holdsSem]

/-- The semaphore invariant: a reachable state never holds more than `C`
slots. -/
theorem rl_semCount_le (C K : Nat) :
    ∀ s, RLReachable C K s → semCount s ≤ C := by
  intro s h
  induction h with
  | init => simp [semCount_replicate]
  | step hreach hstep ih =>
    rename_i s₁ s₂
    cases hstep with
    | callWait n hn =>
      have hcs := countP_set holdsSem s₁ n .waitingSem .idle hn
      simp only [semCount] at *
      simp [holdsSem] at hcs
      omega
    | acquireSem n hn hc =>
      have hcs := countP_set holdsSem s₁ n .waitingTick .waitingSem hn
      simp only [semCount] at *
      simp [holdsSem] at hcs
      omega
    | tick n hn =>
      have hcs := countP_set holdsSem s₁ n .running .waitingTick hn
      simp only [semCount] at *
      simp [holdsSem] at hcs
      omega
    | release n hn =>
      have hcs := countP_set holdsSem s₁ n .released .running hn
      simp only [semCount] at *
      simp [holdsSem] at hcs
      omega

theorem runningCount_le_semCount (s : List RLPhase) :
    runningCount s ≤ semCount s := by
  refine List.countP_mono_left ?_
  intro ph _ hph
  cases ph <;> simp_all [isRunning, holdsSem]

inductive RLEvent where
  | wait
  | release
  deriving DecidableEq, Repr

/-- The rate-limiter interactions of one `GetBatchEmbeddings` goroutine:
`apiRateLimiter.Wait()` on entry and `defer apiRateLimiter.Release()`,
which fires exactly once on *every* exit path — the early `return` after
exhausted retries as well as the normal result send. -/
def windowRLTrace (call : Nat → Except Nat (List Vec)) : List RLEvent :=
  RLEvent.wait ::
    (match runAttempts call attemptNums 0 with
      | .error _ => [RLEvent.release]
      | .ok _ => [RLEvent.release])

/-- **C4**.  In every state reachable by any number `K` of concurrent
callers (in particular `K > C`), at most `C` callers are past `Wait` and
not yet `Release`d — even though the modelled time pulse is always
available; each `Release` returns exactly one semaphore permit; and the
goroutine of every batch window performs exactly one `Wait` matched by
exactly one `Release`, on the error path as well as the success path. -/
theorem C4_rate_limiter_bound (C K : Nat) :
    (∀ s, RLReachable C K s → runningCount s ≤ C)
    ∧ (∀ (s : List RLPhase) (n : Nat), s.get? n = some .running →
        semCount (s.set n .released) + 1 = semCount s)
    ∧ (∀ call : Nat → Except Nat (List Vec),
        (windowRLTrace call).count RLEvent.wait = 1
          ∧ (windowRLTrace call).count RLEvent.release = 1) := by
  refine ⟨?_, ?_, ?_⟩
  · intro s h
    exact (runningCount_le_semCount s).trans (rl_semCount_le C K s h)
  · intro s n hn
    have := countP_set holdsSem s n .released .running hn
    simp [holdsSem] at this
    simp only [semCount]
    omega
  · intro call
    unfold windowRLTrace
    cases runAttempts call attemptNums 0 <;> simp [List.count_cons]

/-- Witness: with `C = 1` and `K = 2` callers, the reachable state
`[running, waitingSem]` (one caller through `Wait`, the second blocked on
the semaphore) satisfies the bound; releasing the running caller frees
exactly one slot; and an always-failing window still pairs its `Wait`
with one `Release`. -/
theorem C4_rate_limiter_bound_witness :
    runningCount [RLPhase.running, RLPhase.waitingSem] ≤ 1
    ∧ (semCount ([RLPhase.running, RLPhase.waitingSem].set 0 .released) + 1
        = semCount [RLPhase.running, RLPhase.waitingSem])
    ∧ ((windowRLTrace (fun _ => Except.error 9)).count RLEvent.wait = 1
        ∧ (windowRLTrace (fun _ => Except.error 9)).count RLEvent.release = 1) := by
  obtain ⟨h1, h2, h3⟩ := C4_rate_limiter_bound 1 2
  refine ⟨h1 _ ?_, h2 [RLPhase.running, RLPhase.waitingSem] 0 rfl, h3 _⟩
  have st0 : RLReachable 1 2 (List.replicate 2 RLPhase.idle) := RLReachable.init
  have st1 := RLReachable.step st0 (RLStep.callWait _ 0 rfl)
  have st2 := RLReachable.step st1 (RLStep.acquireSem _ 0 rfl (by decide))
  have st3 := RLReachable.step st2 (RLStep.tick _ 0 rfl)
  have st4 := RLReachable.step st3 (RLStep.callWait _ 1 rfl)
  exact st4

/-! ## `fileutils.GetCodeFiles` and `GetCodeFilesParallel`

The file system is modelled as a tree: a `bad` node is a directory that
cannot be listed (`lstat`/`ReadDir` fails).  Child lists are given in the
walk's visiting order (`filepath.Walk` visits lexically). -/

inductive FSEntry where
  | file (name : Str)
  | dir (name : Str) (entries : List FSEntry)
  | bad (name : Str) (e : Nat)

def entryName : FSEntry → Str
  | .file n => n
  | .dir n _ => n
  | .bad n _ => n

def pathJoin (parent name : Str) : Str := parent ++ '/' :: name

/-- The `codeExtensions` allow-list of `fileutils`. -/
def codeExtensions : List Str :=
  [".py", ".js", ".ts", ".cpp", ".go", ".java", ".lua", ".jsx", ".tsx",
    ".html", ".css", ".php", ".rb", ".rs", ".cs", ".swift", ".kt"].map
    String.toList

/-- The `skipDirs` deny-list of `fileutils`. -/
def skipDirs : List Str :=
  [".git", "node_modules", "venv", "__pycache__", "dist", "build", ".idea",
    ".vscode"].map String.toList

/-- Scan a reversed name for its final dot. -/
def revTakeToDot : Str → Str → Option Str
  | [], _ => none
  | c :: rest, acc =>
    if c = '.' then some ('.' :: acc) else revTakeToDot rest (c :: acc)

/-- `filepath.Ext(name)`: the suffix beginning at the final dot, or `""`. -/
def filepathExt (name : Str) : Str := (revTakeToDot name.reverse []).getD []

mutual
/-- The `filepath.Walk` of `GetCodeFiles` with its walk function inlined:
an error aborts the walk carrying the files accumulated so far; a skipped
directory's subtree is not entered; a file with an allowed extension is
appended. -/
def walkEntry : Str → FSEntry → List Str → List Str × Option Nat
  | _, .bad _ e, files => (files, some e)
  | path, .file name, files =>
    (if codeExtensions.contains (filepathExt name) then files ++ [path]
      else files, none)
  | path, .dir name entries, files =>
    if skipDirs.contains name then (files, none)
    else walkEntries path entries files

def walkEntries : Str → List FSEntry → List Str → List Str × Option Nat
  | _, [], files => (files, none)
  | path, e :: rest, files =>
    match walkEntry (pathJoin path (entryName e)) e files with
    | (fs, some err) => (fs, some err)
    | (fs, none) => walkEntries path rest fs
end

/-- `fileutils.GetCodeFiles(root)`: serial walk from the root; returns the
accumulated `files` slice together with the walk's error. -/
def GetCodeFiles (rootPath : Str) (tree : FSEntry) : List Str × Option Nat :=
  walkEntry rootPath tree []

mutual
/-- The concurrent traversal of `GetCodeFilesParallel`, sequentialised:
the boolean records whether any `ReadDir` error was sent to `errChan`;
errors do not stop sibling traversal.  The root is `ReadDir`ed without a
skip-list check; a non-directory root is a `ReadDir` error. -/
def processDirP : Str → FSEntry → List Str × Bool
  | _, .bad _ _ => ([], true)
  | _, .file _ => ([], true)
  | path, .dir _ entries => processEntriesP path entries

def processEntriesP : Str → List FSEntry → List Str × Bool
  | _, [] => ([], false)
  | path, e :: rest =>
    let cur : List Str × Bool :=
      match e with
      | .file name =>
        (if codeExtensions.contains (filepathExt name) then [pathJoin path name]
          else [], false)
      | .dir name _ =>
        if skipDirs.contains name then ([], false)
        else processDirP (pathJoin path name) e
      | .bad name _ =>
        if skipDirs.contains name then ([], false) else ([], true)
    let rest' := processEntriesP path rest
    (cur.1 ++ rest'.1, cur.2 || rest'.2)
end

/-- `fileutils.GetCodeFilesParallel(root, maxWorkers)`: `maxWorkers` only
bounds concurrency and cannot change the collected set or whether an
error occurred, so it is not a model parameter.  On any error the source
returns `nil, err` — modelled as `none`: no file list at all. -/
def GetCodeFilesParallel (rootPath : Str) (tree : FSEntry) : Option (List Str) :=
  let r := processDirP rootPath tree
  if r.2 then none else some r.1

mutual
/-- Modelled from the spec's words: the complete file list of an
uninterrupted walk — every allow-listed file not under a deny-listed
directory, in traversal order. -/
def specWalkFiles : Str → FSEntry → List Str
  | _, .bad _ _ => []
  | path, .file name =>
    if codeExtensions.contains (filepathExt name) then [path] else []
  | path, .dir name entries =>
    if skipDirs.contains name then [] else specWalkFilesList path entries

def specWalkFilesList : Str → List FSEntry → List Str
  | _, [] => []
  | path, e :: rest =>
    specWalkFiles (pathJoin path (entryName e)) e ++ specWalkFilesList path rest
end

mutual
/-- The serial walk visits no unreadable node (errors hidden under a
skipped directory do not count). -/
def cleanEntry : FSEntry → Bool
  | .bad _ _ => false
  | .file _ => true
  | .dir name entries => skipDirs.contains name || cleanList entries

def cleanList : List FSEntry → Bool
  | [] => true
  | e :: rest => cleanEntry e && cleanList rest
end

mutual
/-- The parallel traversal hits no `ReadDir` error: the root must be a
listable directory and every non-skipped subdirectory recursively so. -/
def cleanDirP : FSEntry → Bool
  | .bad _ _ => false
  | .file _ => false
  | .dir _ entries => cleanEntriesP entries

def cleanEntriesP : List FSEntry → Bool
  | [] => true
  | e :: rest =>
    (match e with
      | .file _ => true
      | .dir name _ => skipDirs.contains name || cleanDirP e
      | .bad name _ => skipDirs.contains name) && cleanEntriesP rest
end

mutual
theorem walkEntry_clean : ∀ (path : Str) (e : FSEntry) (files : List Str),
    cleanEntry e = true →
    walkEntry path e files = (files ++ specWalkFiles path e, none)
  | path, .bad n err, files => by
    intro h
    simp [cleanEntry] at h
  | path, .file n, files => by
    intro h
    simp only [walkEntry, specWalkFiles]
    split
    · simp
    · simp
  | path, .dir n entries, files => by
    intro h
    simp only [walkEntry, specWalkFiles]
    by_cases hskip : skipDirs.contains n = true
    · rw [if_pos hskip, if_pos hskip]
      simp
    · rw [if_neg hskip, if_neg hskip]
      simp only [cleanEntry, Bool.or_eq_true] at h
      rcases h with h | h
      · exact absurd h hskip
      · exact walkEntries_clean path entries files h

theorem walkEntries_clean : ∀ (path : Str) (es : List FSEntry) (files : List Str),
    cleanList es = true →
    walkEntries path es files = (files ++ specWalkFilesList path es, none)
  | path, [], files => by
    intro h
    simp [walkEntries, specWalkFilesList]
  | path, e :: rest, files => by
    intro h
    simp only [cleanList, Bool.and_eq_true] at h
    simp only [walkEntries, specWalkFilesList]
    rw [walkEntry_clean (pathJoin path (entryName e)) e files h.1]
    show walkEntries path rest (files ++ specWalkFiles (pathJoin path (entryName e)) e)
        = (files ++ (specWalkFiles (pathJoin path (entryName e)) e
            ++ specWalkFilesList path rest), none)
    rw [walkEntries_clean path rest (files ++ specWalkFiles (pathJoin path (entryName e)) e) h.2]
    simp [List.append_assoc]
end

/-- Only a `.dir` entry can satisfy `cleanDirP`; its contribution. -/
def specDirFilesP : Str → FSEntry → List Str
  | path, .dir _ entries => specWalkFilesList path entries
  | _, _ => []

mutual
theorem processDirP_clean : ∀ (path : Str) (e : FSEntry),
    cleanDirP e = true → processDirP path e = (specDirFilesP path e, false)
  | path, .bad n err => by intro h; simp [cleanDirP] at h
  | path, .file n => by intro h; simp [cleanDirP] at h
  | path, .dir n entries => by
    intro h
    simp only [cleanDirP] at h
    simp only [processDirP, specDirFilesP]
    exact processEntriesP_clean path entries h

theorem processEntriesP_clean : ∀ (path : Str) (es : List FSEntry),
    cleanEntriesP es = true →
    processEntriesP path es = (specWalkFilesList path es, false)
  | path, [] => by
    intro h
    simp [processEntriesP, specWalkFilesList]
  | path, e :: rest => by
    intro h
    simp only [cleanEntriesP, Bool.and_eq_true] at h
    have hrest := processEntriesP_clean path rest h.2
    simp only [processEntriesP, specWalkFilesList, hrest]
    cases e with
    | file n =>
      simp only [specWalkFiles, entryName]
      split
      · simp
      · simp
    | dir n sub =>
      simp only [specWalkFiles, entryName]
      by_cases hskip : skipDirs.contains n = true
      · rw [if_pos hskip, if_pos hskip]
        simp
      · rw [if_neg hskip, if_neg hskip]
        have hc : cleanDirP (FSEntry.dir n sub) = true := by
          have := h.1
          simp only [Bool.or_eq_true] at this
          rcases this with hcon | hcon
          · exact absurd hcon hskip
          · exact hcon
        have := processDirP_clean (pathJoin path n) (FSEntry.dir n sub) hc
        rw [this]
        simp [specDirFilesP]
    | bad n err =>
      have hskip : skipDirs.contains n = true := by
        have := h.1
        simpa using this
      simp only [specWalkFiles, entryName]
      rw [if_pos hskip]
      simp
end

mutual
theorem processDirP_err : ∀ (path : Str) (e : FSEntry),
    (processDirP path e).2 = !cleanDirP e
  | path, .bad n err => by simp [processDirP, cleanDirP]
  | path, .file n => by simp [processDirP, cleanDirP]
  | path, .dir n entries => by
    simp only [processDirP, cleanDirP]
    exact processEntriesP_err path entries

theorem processEntriesP_err : ∀ (path : Str) (es : List FSEntry),
    (processEntriesP path es).2 = !cleanEntriesP es
  | path, [] => by simp [processEntriesP, cleanEntriesP]
  | path, e :: rest => by
    have hrest := processEntriesP_err path rest
    simp only [processEntriesP, cleanEntriesP]
    cases e with
    | file n =>
      simp [hrest]
    | dir n sub =>
      by_cases hskip : n ∈ skipDirs
      · simp [hskip, hrest]
      · have hd := processDirP_err (pathJoin path n) (FSEntry.dir n sub)
        simp [hskip, hd, hrest]
    | bad n err =>
      by_cases hskip : n ∈ skipDirs
      · simp [hskip, hrest]
      · simp [hskip, hrest]
end

/-- **C9** (amended).  Both discovery functions fail when the root is
unreadable.  `GetCodeFilesParallel` returns no file list at all on any
error, and on an error-free traversal returns the complete list.
`GetCodeFiles` surfaces the walk error, signalling failure — but, unlike
the parallel variant, the slice it returns alongside the error holds the
files accumulated before the interruption (callers must discard it; see
`C9_counterexample`) — and on an error-free walk returns the complete
list. -/
theorem C9_discovery_amended :
    (∀ (rootPath n : Str) (e : Nat),
      GetCodeFiles rootPath (.bad n e) = ([], some e)
        ∧ GetCodeFilesParallel rootPath (.bad n e) = none)
    ∧ (∀ (rootPath : Str) (tree : FSEntry), cleanEntry tree = true →
        GetCodeFiles rootPath tree = (specWalkFiles rootPath tree, none))
    ∧ (∀ (rootPath : Str) (tree : FSEntry),
        (GetCodeFilesParallel rootPath tree).isSome ↔ cleanDirP tree = true)
    ∧ (∀ (rootPath n : Str) (entries : List FSEntry),
        cleanDirP (.dir n entries) = true →
        GetCodeFilesParallel rootPath (.dir n entries)
          = some (specWalkFilesList rootPath entries)) := by
  refine ⟨?_, ?_, ?_, ?_⟩
  · intro rootPath n e
    exact ⟨rfl, rfl⟩
  · intro rootPath tree h
    unfold GetCodeFiles
    rw [walkEntry_clean rootPath tree [] h]
    simp
  · intro rootPath tree
    unfold GetCodeFilesParallel
    have herr := processDirP_err rootPath tree
    by_cases hc : cleanDirP tree = true
    · rw [hc] at herr
      simp only [Bool.not_true] at herr
      simp [herr, hc]
    · have hcf : cleanDirP tree = false := by
        cases hcd : cleanDirP tree
        · rfl
        · exact absurd hcd hc
      rw [hcf] at herr
      simp only [Bool.not_false] at herr
      simp [herr, hcf]
  · intro rootPath n entries h
    unfold GetCodeFilesParallel
    simp only [cleanDirP] at h
    rw [show processDirP rootPath (FSEntry.dir n entries)
        = processEntriesP rootPath entries from rfl]
    rw [processEntriesP_clean rootPath entries h]
    simp

/-- A root directory holding one code file and then one unreadable
subdirectory. -/
def c9Tree : FSEntry :=
  .dir ['r'] [.file ['a', '.', 'g', 'o'], .bad ['b', 'a', 'd'] 7]

/-- **C9** counterexample.  The interrupted serial walk *does* return
partial results: alongside the error it returns the non-empty file list
accumulated before the unreadable directory was hit (`return files, err`),
refuting "the operation does not return partial results — it either fully
succeeds, returning the complete file list, or fails, returning no usable
file list". -/
theorem C9_counterexample :
    GetCodeFiles ['r'] c9Tree = ([['r', '/', 'a', '.', 'g', 'o']], some 7)
    ∧ ([['r', '/', 'a', '.', 'g', 'o']] : List Str) ≠ [] := by decide

/-- Witness: `C9_discovery_amended` on a clean one-file tree. -/
theorem C9_discovery_amended_witness :
    cleanEntry (FSEntry.dir ['r'] [FSEntry.file ['a', '.', 'g', 'o']]) = true
    ∧ GetCodeFiles ['r'] (FSEntry.dir ['r'] [FSEntry.file ['a', '.', 'g', 'o']])
        = (specWalkFiles ['r']
            (FSEntry.dir ['r'] [FSEntry.file ['a', '.', 'g', 'o']]), none)
    ∧ ((GetCodeFilesParallel ['r']
          (FSEntry.dir ['r'] [FSEntry.file ['a', '.', 'g', 'o']])).isSome
        ↔ cleanDirP (FSEntry.dir ['r'] [FSEntry.file ['a', '.', 'g', 'o']]) = true)
    ∧ GetCodeFilesParallel ['r'] (FSEntry.dir ['r'] [FSEntry.file ['a', '.', 'g', 'o']])
        = some (specWalkFilesList ['r'] [FSEntry.file ['a', '.', 'g', 'o']]) :=
  ⟨by decide,
    (C9_discovery_amended).2.1 ['r'] _ (by decide),
    (C9_discovery_amended).2.2.1 ['r'] _,
    (C9_discovery_amended).2.2.2 ['r'] ['r'] [FSEntry.file ['a', '.', 'g', 'o']]
      (by decide)⟩
